import Mathlib

/-!
Verification of the Proof-of-Emotion consensus engine (Rust) against its
natural-language specification.

This file shallowly embeds the parts of the source that the claims touch:

* `src/src/fork.rs` — fork detection and the fork-choice rule (`resolve_fork`);
* `src/src/byzantine.rs` — double-vote / equivocation detection (`record_vote`);
* `src/src/staking.rs` — the stake ledger (`slash_validator`, `lock_stake`,
  `unlock_stake`, `begin_unbonding`, `complete_unbonding`);
* `src/src/checkpoint.rs` — checkpoint creation and verification;
* `src/src/consensus.rs` — the voting phase (`execute_voting`) and committee
  selection (`select_committee`, including a faithful model of Rust's
  `std::collections::BinaryHeap` push/pop);
* `src/src/biometric.rs` — block validation (`validate_block`; the version in
  the tree is a stale three-argument one, so the four-argument epoch-checking
  version that `consensus.rs` and the integration tests call is modelled from
  the spec).

Machine integers (`u8`, `u32`, `u64`, `usize`) are modelled as `Nat`; every
arithmetic operation used by the embedded code (saturating subtraction and
addition, floor division) stays inside `Nat` ranges, so no wrap-around can
occur and no explicit `% 2^w` is needed.  Cryptographic hashing and signature
verification are abstracted as oracle parameters; SystemTime reads are passed
in as explicit `now` arguments.  Rust's `f64` score/rate computations are
modelled by the exact integer value they floor to (noted at each use site).
-/

namespace PoE

/-! ## Stable sorting (model of Rust's stable `slice::sort_by`)

Rust's `sort_by` is a stable sort: its output is the unique reordering that is
sorted with respect to the comparator and keeps elements that compare equal in
their input order.  A stable insertion sort has exactly this behaviour, so it
is a faithful model of the result of `sort_by`. -/

/-- Insert `x` after every earlier element that compares `le` to it and before
the first element `y` with `le x y`: the stable position for `x`. -/
def insertLe (le : α → α → Bool) (x : α) : List α → List α
  | [] => [x]
  | y :: ys => if le x y then x :: y :: ys else y :: insertLe le x ys

/-- Stable insertion sort: the result of Rust's `sort_by` with comparator
`le`. -/
def insertionSort (le : α → α → Bool) : List α → List α
  | [] => []
  | x :: xs => insertLe le x (insertionSort le xs)

theorem perm_insertLe (le : α → α → Bool) (x : α) (l : List α) :
    List.Perm (insertLe le x l) (x :: l) := by
  induction l with
  | nil => simp [insertLe]
  | cons y ys ih =>
      by_cases h : le x y
      · simp [insertLe, h]
      · simp only [insertLe, h, if_neg, Bool.false_eq_true, ite_false]
        exact (List.Perm.cons y ih).trans (List.Perm.swap x y ys)

theorem perm_insertionSort (le : α → α → Bool) (l : List α) :
    List.Perm (insertionSort le l) l := by
  induction l with
  | nil => simp [insertionSort]
  | cons x xs ih =>
      exact (perm_insertLe le x (insertionSort le xs)).trans (List.Perm.cons x ih)

theorem pairwise_insertLe (le : α → α → Bool)
    (htot : ∀ a b, le a b = true ∨ le b a = true)
    (htrans : ∀ a b c, le a b = true → le b c = true → le a c = true)
    (x : α) (l : List α)
    (h : l.Pairwise (fun a b => le a b = true)) :
    (insertLe le x l).Pairwise (fun a b => le a b = true) := by
  induction l with
  | nil => simp [insertLe]
  | cons y ys ih =>
      rcases List.pairwise_cons.mp h with ⟨h₁, h₂⟩
      by_cases hxy : le x y
      · simp only [insertLe, hxy, if_true]
        refine List.pairwise_cons.mpr ⟨?_, h⟩
        intro b hb
        rcases List.mem_cons.mp hb with hb | hb
        · exact hb ▸ hxy
        · exact htrans x y b hxy (h₁ b hb)
      · simp only [insertLe, hxy, Bool.false_eq_true, ite_false]
        refine List.pairwise_cons.mpr ⟨?_, ih h₂⟩
        intro b hb
        have hb' := (perm_insertLe le x ys).mem_iff.mp hb
        rcases List.mem_cons.mp hb' with hb' | hb'
        · rw [hb']
          rcases htot x y with hc | hc
          · exact absurd hc hxy
          · exact hc
        · exact h₁ b hb'

theorem pairwise_insertionSort (le : α → α → Bool)
    (htot : ∀ a b, le a b = true ∨ le b a = true)
    (htrans : ∀ a b c, le a b = true → le b c = true → le a c = true)
    (l : List α) :
    (insertionSort le l).Pairwise (fun a b => le a b = true) := by
  induction l with
  | nil => simp [insertionSort]
  | cons x xs ih => exact pairwise_insertLe le htot htrans x _ ih

/-- The head of the stably sorted list is `le` every element of the original
list. -/
theorem head_insertionSort_le (le : α → α → Bool)
    (htot : ∀ a b, le a b = true ∨ le b a = true)
    (htrans : ∀ a b c, le a b = true → le b c = true → le a c = true)
    (l : List α) (w : α) (rest : List α)
    (hw : insertionSort le l = w :: rest) :
    ∀ c ∈ l, le w c = true := by
  intro c hc
  have hmem : c ∈ insertionSort le l := (perm_insertionSort le l).mem_iff.mpr hc
  rw [hw] at hmem
  rcases List.mem_cons.mp hmem with hc' | hc'
  · subst hc'
    rcases htot c c with h | h <;> exact h
  · have hp := pairwise_insertionSort le htot htrans l
    rw [hw] at hp
    exact (List.pairwise_cons.mp hp).1 c hc'

/-! ## Fork choice (`src/src/fork.rs`)

`ForkDetector::resolve_fork` collects, for each competing block hash at a
height, the stored `BlockMetadata`, sorts the candidates with the comparator

```rust
candidates.sort_by(|a, b| {
    match b.1.emotional_score.cmp(&a.1.emotional_score) {
        Equal => match b.1.consensus_strength.cmp(&a.1.consensus_strength) {
            Equal => a.1.timestamp.cmp(&b.1.timestamp),
            other => other,
        },
        other => other,
    }
});
```

and returns `candidates[0].0`.  The candidate list is produced by iterating
the `HashSet<String>` of hashes at the height, so its order is the set's
(unspecified) iteration order; the embedding therefore takes the candidate
list, in that iteration order, as input. -/

/-- Metadata stored per block hash by the fork detector
(`fork.rs`, `struct BlockMetadata`). -/
structure BlockMetadata where
  height : ℕ
  emotional_score : ℕ
  consensus_strength : ℕ
  timestamp : ℕ
deriving DecidableEq, Repr

/-- One fork-choice candidate: a block hash paired with its stored metadata,
as produced by the `filter_map` over `blocks_at_height` in `resolve_fork`. -/
structure ForkCand where
  hash : String
  meta : BlockMetadata
deriving DecidableEq, Repr

/-- `Ord::cmp` on `u8`/`u64` values (modelled on `Nat`). -/
def natCmp (a b : ℕ) : Ordering :=
  if a < b then .lt else if a = b then .eq else .gt

/-- The fork-choice comparator of `resolve_fork` (descending emotional score,
then descending consensus strength, then ascending timestamp). -/
def forkCmp (a b : ForkCand) : Ordering :=
  match natCmp b.meta.emotional_score a.meta.emotional_score with
  | .eq =>
      match natCmp b.meta.consensus_strength a.meta.consensus_strength with
      | .eq => natCmp a.meta.timestamp b.meta.timestamp
      | o => o
  | o => o

/-- `a` sorts no later than `b` under the fork-choice comparator. -/
def forkLe (a b : ForkCand) : Bool := forkCmp a b ≠ Ordering.gt

/-- `resolve_fork` on the candidate list (in the hash set's iteration order):
errors when there is nothing to resolve, returns the single hash when there is
no actual fork, and otherwise returns the hash of the first candidate after
the stable sort by the fork-choice comparator. -/
def resolve_fork (cands : List ForkCand) : Except String String :=
  match cands with
  | [] => .error "No blocks to resolve"
  | [c] => .ok c.hash
  | a :: b :: rest =>
      match insertionSort forkLe (a :: b :: rest) with
      | [] => .error "No blocks to resolve"
      | w :: _ => .ok w.hash

/-- `w` wins against `c` under the spec's fork-choice rule: strictly higher
emotional score, or tied score and strictly higher consensus strength, or tied
on both and a timestamp that is no later. -/
def PriorityGe (w c : ForkCand) : Prop :=
  c.meta.emotional_score < w.meta.emotional_score ∨
    (c.meta.emotional_score = w.meta.emotional_score ∧
      (c.meta.consensus_strength < w.meta.consensus_strength ∨
        (c.meta.consensus_strength = w.meta.consensus_strength ∧
          w.meta.timestamp ≤ c.meta.timestamp)))

/-- Strict domination: `w` beats `c` and `c` does not beat `w`. -/
def PriorityGt (w c : ForkCand) : Prop := PriorityGe w c ∧ ¬ PriorityGe c w

theorem forkLe_iff (a b : ForkCand) : forkLe a b = true ↔ PriorityGe a b := by
  unfold forkLe forkCmp natCmp PriorityGe
  split_ifs <;> simp_all <;> omega

theorem forkLe_total (a b : ForkCand) : forkLe a b = true ∨ forkLe b a = true := by
  rw [forkLe_iff, forkLe_iff]
  unfold PriorityGe
  omega

theorem forkLe_trans (a b c : ForkCand) :
    forkLe a b = true → forkLe b c = true → forkLe a c = true := by
  rw [forkLe_iff, forkLe_iff, forkLe_iff]
  unfold PriorityGe
  omega

/-- C4 core lemma: for a non-empty candidate list, `resolve_fork` returns the
hash of a candidate that is `PriorityGe` every candidate, and if one candidate
strictly dominates every other candidate then it is that one. -/
theorem resolve_fork_spec (cands : List ForkCand) (h : cands ≠ []) :
    ∃ w ∈ cands, resolve_fork cands = .ok w.hash ∧
      (∀ c ∈ cands, PriorityGe w c) ∧
      (∀ c ∈ cands, (∀ d ∈ cands, d ≠ c → PriorityGt c d) → w = c) := by
  match cands with
  | [] => exact absurd rfl h
  | [c] =>
      refine ⟨c, List.mem_singleton_self c, rfl, ?_, ?_⟩
      · intro d hd
        rcases List.mem_singleton.mp hd with rfl
        rcases forkLe_total d d with ht | ht <;> exact (forkLe_iff d d).mp ht
      · intro d hd _
        rcases List.mem_singleton.mp hd with rfl
        rfl
  | a :: b :: rest =>
      match hw : insertionSort forkLe (a :: b :: rest) with
      | [] =>
          exfalso
          have hlen := (perm_insertionSort forkLe (a :: b :: rest)).length_eq
          rw [hw] at hlen
          simp at hlen
      | w :: ws =>
          have hwmem : w ∈ a :: b :: rest := by
            have hm : w ∈ insertionSort forkLe (a :: b :: rest) := by
              rw [hw]; exact List.mem_cons_self w ws
            exact (perm_insertionSort forkLe (a :: b :: rest)).mem_iff.mp hm
          have hdom : ∀ c ∈ a :: b :: rest, PriorityGe w c := by
            intro c hc
            exact (forkLe_iff w c).mp
              (head_insertionSort_le forkLe forkLe_total forkLe_trans
                (a :: b :: rest) w ws hw c hc)
          refine ⟨w, hwmem, ?_, hdom, ?_⟩
          · show resolve_fork (a :: b :: rest) = Except.ok w.hash
            simp only [resolve_fork]
            rw [hw]
          · intro c hc huniq
            by_contra hne
            exact (huniq w hwmem hne).2 (hdom c hc)

/-- C4: for every non-empty candidate list, `resolve_fork` returns the hash of
a block whose (emotional score, consensus strength, earliest timestamp)
priority is maximal: every competing block with a higher emotional score, or
tied score and higher consensus strength, or tied on both and an earlier
timestamp, would have been preferred, and none exists.  When one block
strictly dominates all others it is exactly the winner. -/
theorem C4_resolve_fork_picks_highest (cands : List ForkCand) (h : cands ≠ []) :
    ∃ w ∈ cands, resolve_fork cands = .ok w.hash ∧
      (∀ c ∈ cands, PriorityGe w c) ∧
      (∀ c ∈ cands, (∀ d ∈ cands, d ≠ c → PriorityGt c d) → resolve_fork cands = .ok c.hash) := by
  rcases resolve_fork_spec cands h with ⟨w, hmem, hok, hdom, huniq⟩
  refine ⟨w, hmem, hok, hdom, ?_⟩
  intro c hc hcdom
  rw [huniq c hc hcdom] at hok
  exact hok

/-- Witness for C4 at a concrete input: the spec's scenario — two blocks at the
same height with emotional scores 85 and 90, all other fields equal. -/
theorem C4_witness :
    resolve_fork [⟨"hash1", ⟨1, 85, 80, 1000000⟩⟩, ⟨"hash2", ⟨1, 90, 80, 1000000⟩⟩] =
        .ok "hash2" ∧
    ∃ w ∈ [(⟨"hash1", ⟨1, 85, 80, 1000000⟩⟩ : ForkCand), ⟨"hash2", ⟨1, 90, 80, 1000000⟩⟩],
      resolve_fork [⟨"hash1", ⟨1, 85, 80, 1000000⟩⟩, ⟨"hash2", ⟨1, 90, 80, 1000000⟩⟩] =
          .ok w.hash ∧
        (∀ c ∈ [(⟨"hash1", ⟨1, 85, 80, 1000000⟩⟩ : ForkCand), ⟨"hash2", ⟨1, 90, 80, 1000000⟩⟩],
            PriorityGe w c) ∧
        (∀ c ∈ [(⟨"hash1", ⟨1, 85, 80, 1000000⟩⟩ : ForkCand), ⟨"hash2", ⟨1, 90, 80, 1000000⟩⟩],
            (∀ d ∈ [(⟨"hash1", ⟨1, 85, 80, 1000000⟩⟩ : ForkCand),
                ⟨"hash2", ⟨1, 90, 80, 1000000⟩⟩], d ≠ c → PriorityGt c d) →
              resolve_fork [⟨"hash1", ⟨1, 85, 80, 1000000⟩⟩, ⟨"hash2", ⟨1, 90, 80, 1000000⟩⟩] =
                .ok c.hash) :=
  ⟨by rfl,
    C4_resolve_fork_picks_highest
      [⟨"hash1", ⟨1, 85, 80, 1000000⟩⟩, ⟨"hash2", ⟨1, 90, 80, 1000000⟩⟩] (by decide)⟩

instance (w c : ForkCand) : Decidable (PriorityGe w c) := by
  unfold PriorityGe; exact inferInstance

instance (w c : ForkCand) : Decidable (PriorityGt w c) := by
  unfold PriorityGt; exact inferInstance

/-- C5 counterexample: two blocks tied on emotional score, consensus strength
and timestamp, recorded in the two possible orders.  The fork-choice
comparator never looks at the hash, the sort is stable, and `candidates[0]` is
taken, so the winner is whichever tied block comes first in the hash set's
iteration order: the result depends on the order of the competing blocks. -/
theorem C5_counterexample :
    List.Perm
        [(⟨"aaaa", ⟨1, 85, 80, 1000⟩⟩ : ForkCand), ⟨"bbbb", ⟨1, 85, 80, 1000⟩⟩]
        [⟨"bbbb", ⟨1, 85, 80, 1000⟩⟩, ⟨"aaaa", ⟨1, 85, 80, 1000⟩⟩] ∧
      resolve_fork [⟨"aaaa", ⟨1, 85, 80, 1000⟩⟩, ⟨"bbbb", ⟨1, 85, 80, 1000⟩⟩] = .ok "aaaa" ∧
      resolve_fork [⟨"bbbb", ⟨1, 85, 80, 1000⟩⟩, ⟨"aaaa", ⟨1, 85, 80, 1000⟩⟩] = .ok "bbbb" ∧
      resolve_fork [⟨"aaaa", ⟨1, 85, 80, 1000⟩⟩, ⟨"bbbb", ⟨1, 85, 80, 1000⟩⟩] ≠
        resolve_fork [⟨"bbbb", ⟨1, 85, 80, 1000⟩⟩, ⟨"aaaa", ⟨1, 85, 80, 1000⟩⟩] := by
  refine ⟨List.Perm.swap _ _ _, rfl, rfl, ?_⟩
  intro h
  rw [show resolve_fork [⟨"aaaa", ⟨1, 85, 80, 1000⟩⟩, ⟨"bbbb", ⟨1, 85, 80, 1000⟩⟩] =
        .ok "aaaa" from rfl,
      show resolve_fork [⟨"bbbb", ⟨1, 85, 80, 1000⟩⟩, ⟨"aaaa", ⟨1, 85, 80, 1000⟩⟩] =
        .ok "bbbb" from rfl] at h
  exact absurd (Except.ok.inj h) (by decide)

/-- C5 (amended): `resolve_fork` returns the same winner no matter in which
order the competing blocks were recorded, provided one block strictly
dominates every other under the (emotional score, consensus strength, earliest
timestamp) priority; when blocks tie on all three keys the winner is the first
tied block in the underlying set's iteration order, which may depend on
recording order. -/
theorem C5_resolve_fork_order_independent (l₁ l₂ : List ForkCand)
    (hperm : List.Perm l₁ l₂)
    (huniq : ∃ c ∈ l₁, ∀ d ∈ l₁, d ≠ c → PriorityGt c d) :
    resolve_fork l₁ = resolve_fork l₂ := by
  rcases huniq with ⟨c, hc, hcd⟩
  have h₁ : l₁ ≠ [] := by intro h; rw [h] at hc; exact absurd hc (List.not_mem_nil c)
  have h₂ : l₂ ≠ [] := by
    intro h
    exact absurd (hperm.mem_iff.mp hc) (h ▸ List.not_mem_nil c)
  rcases resolve_fork_spec l₁ h₁ with ⟨w₁, hm₁, hok₁, _, huq₁⟩
  rcases resolve_fork_spec l₂ h₂ with ⟨w₂, hm₂, hok₂, _, huq₂⟩
  have hw₁ : w₁ = c := huq₁ c hc hcd
  have hw₂ : w₂ = c := by
    refine huq₂ c (hperm.mem_iff.mp hc) ?_
    intro d hd hne
    exact hcd d (hperm.mem_iff.mpr hd) hne
  rw [hok₁, hok₂, hw₁, hw₂]

/-- Witness for the amended C5 theorem: blocks with scores 85 and 90 recorded
in both orders give the same winner. -/
theorem C5_witness :
    resolve_fork [(⟨"aaaa", ⟨1, 85, 80, 1000⟩⟩ : ForkCand), ⟨"bbbb", ⟨1, 90, 80, 1000⟩⟩] =
      resolve_fork [⟨"bbbb", ⟨1, 90, 80, 1000⟩⟩, ⟨"aaaa", ⟨1, 85, 80, 1000⟩⟩] :=
  C5_resolve_fork_order_independent _ _ (List.Perm.swap _ _ _)
    ⟨⟨"bbbb", ⟨1, 90, 80, 1000⟩⟩, by decide, by decide⟩

/-! ## Byzantine detector (`src/src/byzantine.rs`)

`ByzantineDetector::record_vote` indexes votes by `(validator_id, epoch)`
(a `DashMap`, modelled as a total function defaulting to the empty list),
checks the new vote against the stored ones with
`detect_double_voting_internal`, and on a hit appends one `SlashingEvent` and
returns `Err`; otherwise it appends the vote to the index and returns `Ok`.

The `Vote` struct in `src/src/types.rs` is a stale version without the
`epoch`/`round` fields that `byzantine.rs` and `consensus.rs` read; those two
fields are modelled from the spec's data model (§3: "Vote: validator_id,
block_hash, epoch, round, emotional_score, approved, optional reason,
signature, timestamp"). -/

/-- A vote (`types.rs` `struct Vote`, plus the spec's `epoch`/`round`
fields). -/
structure Vote where
  validator_id : String
  block_hash : String
  epoch : ℕ
  round : ℕ
  emotional_score : ℕ
  approved : Bool
  reason : Option String
  signature : String
  timestamp : ℕ
deriving DecidableEq, Repr

/-- Offense kinds (`staking.rs` `enum SlashingOffense`). -/
inductive SlashingOffense
  | PoorEmotionalBehavior
  | MissedConsensus
  | InvalidBiometric
  | DoubleSigning
  | Downtime
deriving DecidableEq, Repr

/-- Severities (`staking.rs` `enum SlashingSeverity`). -/
inductive SlashingSeverity
  | Minor
  | Major
  | Critical
deriving DecidableEq, Repr

/-- A slashing event (`staking.rs` `struct SlashingEvent`).  The source's
`slashing_rate: f64` always holds an exact small value (`15.0`/`5.0` percent
in `byzantine.rs`, the fractions `0.01`/`0.05`/`0.15` in `staking.rs`); it is
modelled by the percentage as a natural number. -/
structure SlashingEvent where
  id : String
  validator_id : String
  offense : SlashingOffense
  severity : SlashingSeverity
  slashing_rate_pct : ℕ
  amount : ℕ
  timestamp : ℕ
  evidence : String
deriving DecidableEq, Repr

/-- `create_double_voting_event` (`byzantine.rs`). -/
def doubleVotingEvent (validator_id : String) (epoch : ℕ) (votes : List Vote)
    (now : ℕ) : SlashingEvent :=
  { id := "double-vote-" ++ validator_id ++ "-" ++ toString epoch
    validator_id := validator_id
    offense := .DoubleSigning
    severity := .Critical
    slashing_rate_pct := 15
    amount := 0
    timestamp := now
    evidence := "Double voting in epoch " ++ toString epoch ++ ": " ++
      toString votes.length ++ " conflicting votes on same block" }

/-- `create_equivocation_event` (`byzantine.rs`).  The source counts the
distinct block hashes with a `HashSet`; `dedup` gives the same count. -/
def equivocationEvent (validator_id : String) (epoch : ℕ) (votes : List Vote)
    (now : ℕ) : SlashingEvent :=
  { id := "equivocation-" ++ validator_id ++ "-" ++ toString epoch
    validator_id := validator_id
    offense := .DoubleSigning
    severity := .Major
    slashing_rate_pct := 5
    amount := 0
    timestamp := now
    evidence := "Equivocation in epoch " ++ toString epoch ++ ": voted on " ++
      toString ((votes.map Vote.block_hash).dedup).length ++ " different blocks" }

/-- `detect_double_voting_internal` (`byzantine.rs`): walk the stored votes;
a stored vote on the same block hash with a different `approved` flag is
double voting (checked first), a stored vote on a different block hash is
equivocation.  The constructed event always cites the full stored list plus
the new vote. -/
def detect_double_voting_internal (existing : List Vote) (all : List Vote)
    (v : Vote) (now : ℕ) : Option SlashingEvent :=
  match existing with
  | [] => none
  | e :: rest =>
      if e.block_hash = v.block_hash ∧ e.approved ≠ v.approved then
        some (doubleVotingEvent v.validator_id v.epoch (all ++ [v]) now)
      else if e.block_hash ≠ v.block_hash then
        some (equivocationEvent v.validator_id v.epoch (all ++ [v]) now)
      else detect_double_voting_internal rest all v now

/-- Byzantine detector state (`byzantine.rs` `struct ByzantineDetector`,
restricted to the vote index and the slashing-event log that `record_vote`
touches). -/
structure ByzantineDetector where
  votes : String × ℕ → List Vote
  events : List SlashingEvent

/-- The error message `record_vote` returns on any detection hit. -/
def dvErrMsg (v : Vote) : String :=
  "Double voting detected for validator " ++ v.validator_id ++ " in epoch " ++
    toString v.epoch

/-- `ByzantineDetector::record_vote`: on a detection hit, push the event and
return `Err` (the vote is not stored); otherwise append the vote under its
`(validator_id, epoch)` key and return `Ok`. -/
def record_vote (s : ByzantineDetector) (v : Vote) (now : ℕ) :
    ByzantineDetector × Except String Unit :=
  match detect_double_voting_internal (s.votes (v.validator_id, v.epoch))
      (s.votes (v.validator_id, v.epoch)) v now with
  | some ev => ({ s with events := s.events ++ [ev] }, .error (dvErrMsg v))
  | none =>
      ({ s with
          votes := fun k =>
            if k = (v.validator_id, v.epoch) then
              s.votes (v.validator_id, v.epoch) ++ [v]
            else s.votes k },
        .ok ())

/-- All stored votes under one `(validator, epoch)` key agree on block hash
and approval flag — the invariant `record_vote` maintains, since a vote that
disagrees is rejected before being stored. -/
def CoherentVotes (vs : List Vote) : Prop :=
  ∀ a ∈ vs, ∀ b ∈ vs, a.block_hash = b.block_hash ∧ a.approved = b.approved

instance (vs : List Vote) : Decidable (CoherentVotes vs) := by
  unfold CoherentVotes; exact inferInstance

theorem detect_ne_none_of_disagree (v : Vote) (now : ℕ) (w : Vote)
    (hdis : ¬(w.block_hash = v.block_hash ∧ w.approved = v.approved)) :
    ∀ existing all, w ∈ existing →
      detect_double_voting_internal existing all v now ≠ none := by
  intro existing
  induction existing with
  | nil => intro all hw; exact absurd hw (List.not_mem_nil w)
  | cons e rest ih =>
      intro all hw
      unfold detect_double_voting_internal
      by_cases h1 : e.block_hash = v.block_hash ∧ e.approved ≠ v.approved
      · rw [if_pos h1]; simp
      · rw [if_neg h1]
        by_cases h2 : e.block_hash ≠ v.block_hash
        · rw [if_pos h2]; simp
        · rw [if_neg h2]
          rcases List.mem_cons.mp hw with rfl | hw'
          · exact absurd ⟨not_not.mp h2, by tauto⟩ hdis
          · exact ih all hw'

theorem detect_none_of_agree (existing all : List Vote) (v : Vote) (now : ℕ)
    (h : ∀ w ∈ existing, w.block_hash = v.block_hash ∧ w.approved = v.approved) :
    detect_double_voting_internal existing all v now = none := by
  induction existing with
  | nil => rfl
  | cons e rest ih =>
      have he := h e (List.mem_cons_self e rest)
      unfold detect_double_voting_internal
      rw [if_neg (by simp [he.1, he.2]), if_neg (by simp [he.1])]
      exact ih (fun w hw => h w (List.mem_cons_of_mem e hw))

/-- `record_vote` keeps every per-key vote list coherent. -/
theorem record_vote_preserves_coherence (s : ByzantineDetector) (v : Vote)
    (now : ℕ) (h : ∀ k, CoherentVotes (s.votes k)) :
    ∀ k, CoherentVotes ((record_vote s v now).1.votes k) := by
  intro k
  unfold record_vote
  cases hdet : detect_double_voting_internal (s.votes (v.validator_id, v.epoch))
      (s.votes (v.validator_id, v.epoch)) v now with
  | some ev => exact h k
  | none =>
      simp only
      by_cases hk : k = (v.validator_id, v.epoch)
      · rw [if_pos hk]
        -- every stored vote must agree with `v`, else detection would have hit
        have hagree : ∀ w ∈ s.votes (v.validator_id, v.epoch),
            w.block_hash = v.block_hash ∧ w.approved = v.approved := by
          intro w hw
          by_contra hcontra
          exact detect_ne_none_of_disagree v now w hcontra
            (s.votes (v.validator_id, v.epoch)) (s.votes (v.validator_id, v.epoch))
            hw hdet
        intro a ha b hb
        rcases List.mem_append.mp ha with ha | ha
        · rcases List.mem_append.mp hb with hb | hb
          · exact h _ a ha b hb
          · rcases List.mem_singleton.mp hb with rfl
            exact hagree a ha
        · rcases List.mem_singleton.mp ha with rfl
          rcases List.mem_append.mp hb with hb | hb
          · have := hagree b hb
            exact ⟨this.1.symm, this.2.symm⟩
          · rcases List.mem_singleton.mp hb with rfl
            exact ⟨rfl, rfl⟩
      · rw [if_neg hk]
        exact h k

/-- C6: with the per-key store coherent (as `record_vote` maintains), a new
vote on the same block hash with a different approval flag is rejected with
exactly one new Critical slashing event; a new vote on a different block hash
is rejected with exactly one new Major (equivocation) slashing event; any
other vote is stored under its key and `Ok` is returned with no new event. -/
theorem C6_record_vote (s : ByzantineDetector) (v : Vote) (now : ℕ)
    (hcoh : CoherentVotes (s.votes (v.validator_id, v.epoch))) :
    ((∃ w ∈ s.votes (v.validator_id, v.epoch),
        w.block_hash = v.block_hash ∧ w.approved ≠ v.approved) →
      ∃ ev, (record_vote s v now).1.events = s.events ++ [ev] ∧
        ev.severity = .Critical ∧ ev.offense = .DoubleSigning ∧
        (record_vote s v now).2 = .error (dvErrMsg v) ∧
        (record_vote s v now).1.votes = s.votes) ∧
    ((∃ w ∈ s.votes (v.validator_id, v.epoch), w.block_hash ≠ v.block_hash) →
      ∃ ev, (record_vote s v now).1.events = s.events ++ [ev] ∧
        ev.severity = .Major ∧ ev.offense = .DoubleSigning ∧
        (record_vote s v now).2 = .error (dvErrMsg v) ∧
        (record_vote s v now).1.votes = s.votes) ∧
    ((∀ w ∈ s.votes (v.validator_id, v.epoch),
        w.block_hash = v.block_hash ∧ w.approved = v.approved) →
      (record_vote s v now).2 = .ok () ∧
        (record_vote s v now).1.events = s.events ∧
        (record_vote s v now).1.votes (v.validator_id, v.epoch) =
          s.votes (v.validator_id, v.epoch) ++ [v]) := by
  refine ⟨?_, ?_, ?_⟩
  · rintro ⟨w, hw, hwh, hwa⟩
    match hvs : s.votes (v.validator_id, v.epoch) with
    | [] => rw [hvs] at hw; exact absurd hw (List.not_mem_nil w)
    | e :: rest =>
        rw [hvs] at hw hcoh
        have he : e.block_hash = v.block_hash ∧ e.approved ≠ v.approved := by
          have h1 := hcoh e (List.mem_cons_self e rest) w hw
          exact ⟨h1.1.trans hwh, by rw [h1.2]; exact hwa⟩
        have hdet : detect_double_voting_internal (s.votes (v.validator_id, v.epoch))
            (s.votes (v.validator_id, v.epoch)) v now =
            some (doubleVotingEvent v.validator_id v.epoch
              (s.votes (v.validator_id, v.epoch) ++ [v]) now) := by
          rw [hvs]
          unfold detect_double_voting_internal
          rw [if_pos he]
        refine ⟨doubleVotingEvent v.validator_id v.epoch
          (s.votes (v.validator_id, v.epoch) ++ [v]) now, ?_, rfl, rfl, ?_, ?_⟩
        · unfold record_vote
          rw [hdet]
        · unfold record_vote
          rw [hdet]
        · unfold record_vote
          rw [hdet]
  · rintro ⟨w, hw, hwh⟩
    match hvs : s.votes (v.validator_id, v.epoch) with
    | [] => rw [hvs] at hw; exact absurd hw (List.not_mem_nil w)
    | e :: rest =>
        rw [hvs] at hw hcoh
        have he : e.block_hash ≠ v.block_hash := by
          have h1 := hcoh e (List.mem_cons_self e rest) w hw
          rw [h1.1]; exact hwh
        have hdet : detect_double_voting_internal (s.votes (v.validator_id, v.epoch))
            (s.votes (v.validator_id, v.epoch)) v now =
            some (equivocationEvent v.validator_id v.epoch
              (s.votes (v.validator_id, v.epoch) ++ [v]) now) := by
          rw [hvs]
          unfold detect_double_voting_internal
          rw [if_neg (by tauto), if_pos he]
        refine ⟨equivocationEvent v.validator_id v.epoch
          (s.votes (v.validator_id, v.epoch) ++ [v]) now, ?_, rfl, rfl, ?_, ?_⟩
        · unfold record_vote
          rw [hdet]
        · unfold record_vote
          rw [hdet]
        · unfold record_vote
          rw [hdet]
  · intro hagree
    have hdet := detect_none_of_agree (s.votes (v.validator_id, v.epoch))
      (s.votes (v.validator_id, v.epoch)) v now hagree
    refine ⟨?_, ?_, ?_⟩
    · unfold record_vote
      rw [hdet]
    · unfold record_vote
      rw [hdet]
    · unfold record_vote
      rw [hdet]
      simp

/-- Witness for C6: the spec's double-vote scenario — validator `V` voted
approve on hash `H` in epoch 1, then casts a reject on the same hash. -/
theorem C6_witness :
    ((∃ w ∈ (ByzantineDetector.mk
          (fun k => if k = ("V", 1) then [⟨"V", "H", 1, 0, 80, true, none, "", 5⟩] else [])
          []).votes ("V", 1),
        w.block_hash = (⟨"V", "H", 1, 0, 80, false, none, "", 6⟩ : Vote).block_hash ∧
          w.approved ≠ (⟨"V", "H", 1, 0, 80, false, none, "", 6⟩ : Vote).approved) →
      ∃ ev, (record_vote (ByzantineDetector.mk
          (fun k => if k = ("V", 1) then [⟨"V", "H", 1, 0, 80, true, none, "", 5⟩] else [])
          []) ⟨"V", "H", 1, 0, 80, false, none, "", 6⟩ 7).1.events = [] ++ [ev] ∧
        ev.severity = .Critical ∧ ev.offense = .DoubleSigning ∧
        (record_vote (ByzantineDetector.mk
          (fun k => if k = ("V", 1) then [⟨"V", "H", 1, 0, 80, true, none, "", 5⟩] else [])
          []) ⟨"V", "H", 1, 0, 80, false, none, "", 6⟩ 7).2 =
            .error (dvErrMsg ⟨"V", "H", 1, 0, 80, false, none, "", 6⟩) ∧
        (record_vote (ByzantineDetector.mk
          (fun k => if k = ("V", 1) then [⟨"V", "H", 1, 0, 80, true, none, "", 5⟩] else [])
          []) ⟨"V", "H", 1, 0, 80, false, none, "", 6⟩ 7).1.votes =
          (ByzantineDetector.mk
          (fun k => if k = ("V", 1) then [⟨"V", "H", 1, 0, 80, true, none, "", 5⟩] else [])
          []).votes) ∧
    ((∃ w ∈ (ByzantineDetector.mk
          (fun k => if k = ("V", 1) then [⟨"V", "H", 1, 0, 80, true, none, "", 5⟩] else [])
          []).votes ("V", 1),
        w.block_hash ≠ (⟨"V", "H", 1, 0, 80, false, none, "", 6⟩ : Vote).block_hash) →
      ∃ ev, (record_vote (ByzantineDetector.mk
          (fun k => if k = ("V", 1) then [⟨"V", "H", 1, 0, 80, true, none, "", 5⟩] else [])
          []) ⟨"V", "H", 1, 0, 80, false, none, "", 6⟩ 7).1.events = [] ++ [ev] ∧
        ev.severity = .Major ∧ ev.offense = .DoubleSigning ∧
        (record_vote (ByzantineDetector.mk
          (fun k => if k = ("V", 1) then [⟨"V", "H", 1, 0, 80, true, none, "", 5⟩] else [])
          []) ⟨"V", "H", 1, 0, 80, false, none, "", 6⟩ 7).2 =
            .error (dvErrMsg ⟨"V", "H", 1, 0, 80, false, none, "", 6⟩) ∧
        (record_vote (ByzantineDetector.mk
          (fun k => if k = ("V", 1) then [⟨"V", "H", 1, 0, 80, true, none, "", 5⟩] else [])
          []) ⟨"V", "H", 1, 0, 80, false, none, "", 6⟩ 7).1.votes =
          (ByzantineDetector.mk
          (fun k => if k = ("V", 1) then [⟨"V", "H", 1, 0, 80, true, none, "", 5⟩] else [])
          []).votes) ∧
    ((∀ w ∈ (ByzantineDetector.mk
          (fun k => if k = ("V", 1) then [⟨"V", "H", 1, 0, 80, true, none, "", 5⟩] else [])
          []).votes ("V", 1),
        w.block_hash = (⟨"V", "H", 1, 0, 80, false, none, "", 6⟩ : Vote).block_hash ∧
          w.approved = (⟨"V", "H", 1, 0, 80, false, none, "", 6⟩ : Vote).approved) →
      (record_vote (ByzantineDetector.mk
          (fun k => if k = ("V", 1) then [⟨"V", "H", 1, 0, 80, true, none, "", 5⟩] else [])
          []) ⟨"V", "H", 1, 0, 80, false, none, "", 6⟩ 7).2 = .ok () ∧
        (record_vote (ByzantineDetector.mk
          (fun k => if k = ("V", 1) then [⟨"V", "H", 1, 0, 80, true, none, "", 5⟩] else [])
          []) ⟨"V", "H", 1, 0, 80, false, none, "", 6⟩ 7).1.events = [] ∧
        (record_vote (ByzantineDetector.mk
          (fun k => if k = ("V", 1) then [⟨"V", "H", 1, 0, 80, true, none, "", 5⟩] else [])
          []) ⟨"V", "H", 1, 0, 80, false, none, "", 6⟩ 7).1.votes ("V", 1) =
          (ByzantineDetector.mk
          (fun k => if k = ("V", 1) then [⟨"V", "H", 1, 0, 80, true, none, "", 5⟩] else [])
          []).votes ("V", 1) ++ [⟨"V", "H", 1, 0, 80, false, none, "", 6⟩]) :=
  C6_record_vote
    (ByzantineDetector.mk
      (fun k => if k = ("V", 1) then [⟨"V", "H", 1, 0, 80, true, none, "", 5⟩] else []) [])
    ⟨"V", "H", 1, 0, 80, false, none, "", 6⟩ 7 (by decide)

/-! ## Stake ledger (`src/src/staking.rs`)

`EmotionalStaking` holds the validator registry (a `HashMap`, modelled as a
total function into `Option`), the slashing-event log, the minimum stake and
the current epoch.  The delegation `stakes` map and the reward history are
not touched by any claim and are omitted.

`slash_validator` computes `slash_amount = (stake as f64 * rate) as u64` with
`rate ∈ {0.01, 0.05, 0.15}`; for every `u64` stake below `2^52` that value is
exactly `stake * pct / 100` with `pct ∈ {1, 5, 15}` in integer floor
division, which is how it is modelled.  `Uuid::new_v4` (a random event id)
and `SystemTime::now` are passed in as explicit arguments. -/

/-- A registered validator (`staking.rs` `struct Validator`). -/
structure StValidator where
  id : String
  address : String
  stake : ℕ
  locked_stake : ℕ
  available_stake : ℕ
  unlock_epoch : Option ℕ
  emotional_score : ℕ
  reputation : ℕ
  is_active : Bool
  commission : ℕ
  last_activity : ℕ
  total_rewards : ℕ
  total_penalties : ℕ
deriving DecidableEq, Repr

/-- Staking-engine state (`staking.rs` `struct EmotionalStaking`, restricted
to the fields the claims touch). -/
structure EmotionalStaking where
  validators : String → Option StValidator
  slashing_events : List SlashingEvent
  min_stake : ℕ
  current_epoch : ℕ

/-- Update one validator in the registry. -/
def putValidator (st : EmotionalStaking) (vid : String) (v : StValidator) :
    EmotionalStaking :=
  { st with validators := fun k => if k = vid then some v else st.validators k }

/-- `EmotionalStaking::determine_severity` (`staking.rs`). -/
def determine_severity (offense : SlashingOffense) (_evidence : String) :
    SlashingSeverity :=
  match offense with
  | .PoorEmotionalBehavior => .Minor
  | .MissedConsensus => .Minor
  | .InvalidBiometric => .Major
  | .DoubleSigning => .Critical
  | .Downtime => .Minor

/-- The slashing rate of each severity, as a percentage (source: `0.01`,
`0.05`, `0.15` as `f64` fractions). -/
def severityRatePct : SlashingSeverity → ℕ
  | .Minor => 1
  | .Major => 5
  | .Critical => 15

/-- The reputation penalty of each severity (`staking.rs`). -/
def repPenalty : SlashingSeverity → ℕ
  | .Minor => 5
  | .Major => 10
  | .Critical => 20

/-- `slash_amount = (stake as f64 * slashing_rate) as u64`, i.e. the floor of
`stake × pct / 100`. -/
def slashAmount (stake : ℕ) (sev : SlashingSeverity) : ℕ :=
  stake * severityRatePct sev / 100

/-- Constant `UNBONDING_PERIOD_EPOCHS`.  Modelled from the spec:
`staking.rs` reads `crate::UNBONDING_PERIOD_EPOCHS`, but the constant is
missing from the `src/src/lib.rs` in the tree; the spec (§6) fixes it at
2016. -/
def UNBONDING_PERIOD_EPOCHS : ℕ := 2016

/-- `EmotionalStaking::register_validator` (`staking.rs`). -/
def register_validator (st : EmotionalStaking) (id address : String)
    (initial_stake commission : ℕ) (now : ℕ) :
    EmotionalStaking × Except String Unit :=
  if initial_stake < st.min_stake then
    (st, .error ("Insufficient stake: " ++ toString initial_stake ++ " < " ++
      toString st.min_stake))
  else if 20 < commission then
    (st, .error "Commission must be <= 20%")
  else
    (putValidator st id
      { id := id
        address := address
        stake := initial_stake
        locked_stake := 0
        available_stake := initial_stake
        unlock_epoch := none
        emotional_score := 0
        reputation := 100
        is_active := true
        commission := commission
        last_activity := now
        total_rewards := 0
        total_penalties := 0 },
      .ok ())

/-- `EmotionalStaking::slash_validator` (`staking.rs`): pick the severity by
offense kind, slash `rate × stake` (saturating) off the `stake` field, add it
to `total_penalties`, reduce reputation (saturating) by 5/10/20, deactivate
when the remaining stake drops below the minimum, and push one
`SlashingEvent`.  The `locked_stake` and `available_stake` fields are not
modified. -/
def slash_validator (st : EmotionalStaking) (vid : String)
    (offense : SlashingOffense) (evidence : String) (event_id : String)
    (now : ℕ) : EmotionalStaking × Except String Unit :=
  match st.validators vid with
  | none => (st, .error ("Validator not found: " ++ vid))
  | some v =>
      ({ putValidator st vid
          { v with
            stake := v.stake - slashAmount v.stake (determine_severity offense evidence)
            total_penalties :=
              v.total_penalties + slashAmount v.stake (determine_severity offense evidence)
            reputation := v.reputation - repPenalty (determine_severity offense evidence)
            is_active :=
              if v.stake - slashAmount v.stake (determine_severity offense evidence) <
                  st.min_stake then false
              else v.is_active } with
        slashing_events := st.slashing_events ++
          [{ id := event_id
             validator_id := vid
             offense := offense
             severity := determine_severity offense evidence
             slashing_rate_pct := severityRatePct (determine_severity offense evidence)
             amount := slashAmount v.stake (determine_severity offense evidence)
             timestamp := now
             evidence := evidence }] },
        .ok ())

/-- `EmotionalStaking::lock_stake` (`staking.rs`). -/
def lock_stake (st : EmotionalStaking) (vid : String) (amount : ℕ) :
    EmotionalStaking × Except String Unit :=
  match st.validators vid with
  | none => (st, .error ("Validator not found: " ++ vid))
  | some v =>
      if v.available_stake < amount then
        (st, .error ("Insufficient stake: " ++ toString v.available_stake ++
          " < " ++ toString amount))
      else
        (putValidator st vid
          { v with
            available_stake := v.available_stake - amount
            locked_stake := v.locked_stake + amount },
          .ok ())

/-- `EmotionalStaking::unlock_stake` (`staking.rs`). -/
def unlock_stake (st : EmotionalStaking) (vid : String) :
    EmotionalStaking × Except String Unit :=
  match st.validators vid with
  | none => (st, .error ("Validator not found: " ++ vid))
  | some v =>
      (putValidator st vid
        { v with
          available_stake := v.available_stake + v.locked_stake
          locked_stake := 0 },
        .ok ())

/-- `EmotionalStaking::begin_unbonding` (`staking.rs`). -/
def begin_unbonding (st : EmotionalStaking) (vid : String) (amount : ℕ) :
    EmotionalStaking × Except String Unit :=
  match st.validators vid with
  | none => (st, .error ("Validator not found: " ++ vid))
  | some v =>
      if v.unlock_epoch.isSome then
        (st, .error "Validator is already unbonding")
      else if v.available_stake < amount then
        (st, .error ("Insufficient stake: " ++ toString v.available_stake ++
          " < " ++ toString amount))
      else
        (putValidator st vid
          { v with
            available_stake := v.available_stake - amount
            locked_stake := v.locked_stake + amount
            unlock_epoch := some (st.current_epoch + UNBONDING_PERIOD_EPOCHS)
            is_active := false },
          .ok ())

/-- `EmotionalStaking::complete_unbonding` (`staking.rs`). -/
def complete_unbonding (st : EmotionalStaking) (vid : String) :
    EmotionalStaking × Except String ℕ :=
  match st.validators vid with
  | none => (st, .error ("Validator not found: " ++ vid))
  | some v =>
      match v.unlock_epoch with
      | none => (st, .error "Validator is not unbonding")
      | some unlock_epoch =>
          if st.current_epoch < unlock_epoch then
            (st, .error "Unbonding period not complete")
          else
            (putValidator st vid
              { v with
                stake := v.stake - v.locked_stake
                locked_stake := 0
                unlock_epoch := none },
              .ok v.locked_stake)

/-- C7 (amended): `slash_validator` on a registered validator succeeds,
reduces the `stake` field by `rate × stake` rounded down (so the stake never
increases), adds that amount to `total_penalties`, reduces the reputation by
5/10/20 for Minor/Major/Critical saturating at zero, maps DoubleSigning to
Critical, InvalidBiometric to Major and every other offense to Minor,
deactivates the validator when the remaining stake is below the configured
minimum, and appends exactly one `SlashingEvent` carrying that severity and
amount. -/
theorem C7_slash_validator (st : EmotionalStaking) (vid : String)
    (offense : SlashingOffense) (evidence event_id : String) (now : ℕ)
    (v : StValidator) (hv : st.validators vid = some v) :
    (slash_validator st vid offense evidence event_id now).2 = .ok () ∧
    ∃ v', (slash_validator st vid offense evidence event_id now).1.validators vid =
        some v' ∧
      v'.stake = v.stake - slashAmount v.stake (determine_severity offense evidence) ∧
      v'.stake ≤ v.stake ∧
      v'.reputation = v.reputation - repPenalty (determine_severity offense evidence) ∧
      v'.total_penalties =
        v.total_penalties + slashAmount v.stake (determine_severity offense evidence) ∧
      (v'.stake < st.min_stake → v'.is_active = false) ∧
      (offense = .DoubleSigning → determine_severity offense evidence = .Critical) ∧
      (offense = .InvalidBiometric → determine_severity offense evidence = .Major) ∧
      (offense ≠ .DoubleSigning → offense ≠ .InvalidBiometric →
        determine_severity offense evidence = .Minor) ∧
      (slash_validator st vid offense evidence event_id now).1.slashing_events =
        st.slashing_events ++
          [{ id := event_id
             validator_id := vid
             offense := offense
             severity := determine_severity offense evidence
             slashing_rate_pct := severityRatePct (determine_severity offense evidence)
             amount := slashAmount v.stake (determine_severity offense evidence)
             timestamp := now
             evidence := evidence }] := by
  unfold slash_validator
  rw [hv]
  refine ⟨rfl, ?_⟩
  refine ⟨{ v with
      stake := v.stake - slashAmount v.stake (determine_severity offense evidence)
      total_penalties :=
        v.total_penalties + slashAmount v.stake (determine_severity offense evidence)
      reputation := v.reputation - repPenalty (determine_severity offense evidence)
      is_active :=
        if v.stake - slashAmount v.stake (determine_severity offense evidence) <
            st.min_stake then false
        else v.is_active },
    ?_, rfl, Nat.sub_le _ _, rfl, rfl, ?_, ?_, ?_, ?_, rfl⟩
  · simp [putValidator]
  · intro hlt
    simp only
    rw [if_pos hlt]
  · intro h; subst h; rfl
  · intro h; subst h; rfl
  · intro h1 h2
    cases offense with
    | PoorEmotionalBehavior => rfl
    | MissedConsensus => rfl
    | InvalidBiometric => exact absurd rfl h2
    | DoubleSigning => exact absurd rfl h1
    | Downtime => rfl

/-- Witness for C7: slash a freshly registered validator (stake 10000,
reputation 100, minimum 10000) for double signing. -/
theorem C7_witness :
    (slash_validator
        ⟨fun k => if k = "V" then
            some ⟨"V", "addr", 10000, 0, 10000, none, 0, 100, true, 5, 0, 0, 0⟩
          else none, [], 10000, 0⟩
        "V" .DoubleSigning "caught" "evt-1" 99).2 = .ok () ∧
    ∃ v', (slash_validator
        ⟨fun k => if k = "V" then
            some ⟨"V", "addr", 10000, 0, 10000, none, 0, 100, true, 5, 0, 0, 0⟩
          else none, [], 10000, 0⟩
        "V" .DoubleSigning "caught" "evt-1" 99).1.validators "V" = some v' ∧
      v'.stake = 10000 - slashAmount 10000 (determine_severity .DoubleSigning "caught") ∧
      v'.stake ≤ 10000 ∧
      v'.reputation = 100 - repPenalty (determine_severity .DoubleSigning "caught") ∧
      v'.total_penalties = 0 + slashAmount 10000 (determine_severity .DoubleSigning "caught") ∧
      (v'.stake < 10000 → v'.is_active = false) ∧
      (SlashingOffense.DoubleSigning = .DoubleSigning →
        determine_severity .DoubleSigning "caught" = .Critical) ∧
      (SlashingOffense.DoubleSigning = .InvalidBiometric →
        determine_severity .DoubleSigning "caught" = .Major) ∧
      (SlashingOffense.DoubleSigning ≠ .DoubleSigning →
        SlashingOffense.DoubleSigning ≠ .InvalidBiometric →
        determine_severity .DoubleSigning "caught" = .Minor) ∧
      (slash_validator
        ⟨fun k => if k = "V" then
            some ⟨"V", "addr", 10000, 0, 10000, none, 0, 100, true, 5, 0, 0, 0⟩
          else none, [], 10000, 0⟩
        "V" .DoubleSigning "caught" "evt-1" 99).1.slashing_events =
        [] ++
          [{ id := "evt-1"
             validator_id := "V"
             offense := .DoubleSigning
             severity := determine_severity .DoubleSigning "caught"
             slashing_rate_pct := severityRatePct (determine_severity .DoubleSigning "caught")
             amount := slashAmount 10000 (determine_severity .DoubleSigning "caught")
             timestamp := 99
             evidence := "caught" }] :=
  C7_slash_validator
    ⟨fun k => if k = "V" then
        some ⟨"V", "addr", 10000, 0, 10000, none, 0, 100, true, 5, 0, 0, 0⟩
      else none, [], 10000, 0⟩
    "V" .DoubleSigning "caught" "evt-1" 99
    ⟨"V", "addr", 10000, 0, 10000, none, 0, 100, true, 5, 0, 0, 0⟩ (by decide)

/-- C7 counterexample: the claim says a Critical slash "reduces reputation by
20", but `reputation.saturating_sub(20)` on a validator whose reputation is
already 15 (reachable by seventeen Minor slashes from 100) reduces it by only
15, to 0. -/
theorem C7_counterexample :
    (slash_validator
        ⟨fun k => if k = "V" then
            some ⟨"V", "addr", 10000, 0, 10000, none, 0, 15, true, 5, 0, 0, 0⟩
          else none, [], 1000, 0⟩
        "V" .DoubleSigning "caught" "evt-1" 99).1.validators "V" =
      some ⟨"V", "addr", 8500, 0, 10000, none, 0, 0, true, 5, 0, 0, 1500⟩ ∧
    ¬ ((0 : ℕ) + 20 = 15) := by
  constructor
  · rfl
  · decide

/-! ### Stake conservation (C8)

A sequence of ledger operations after registration, each targeting an
arbitrary validator.  `distribute_rewards` is outside the claim's operation
list and adds stake to nobody's `locked`/`available` anyway. -/

/-- One staking-ledger operation from the claim's list. -/
inductive StakeOp
  | lock (vid : String) (amount : ℕ)
  | unlock (vid : String)
  | beginUnbonding (vid : String) (amount : ℕ)
  | completeUnbonding (vid : String)
  | slash (vid : String) (offense : SlashingOffense) (evidence event_id : String) (now : ℕ)

/-- Apply one ledger operation (failed operations leave the state unchanged,
as in the source, where the error is returned before any mutation). -/
def applyStakeOp (st : EmotionalStaking) : StakeOp → EmotionalStaking
  | .lock vid amount => (lock_stake st vid amount).1
  | .unlock vid => (unlock_stake st vid).1
  | .beginUnbonding vid amount => (begin_unbonding st vid amount).1
  | .completeUnbonding vid => (complete_unbonding st vid).1
  | .slash vid offense evidence event_id now =>
      (slash_validator st vid offense evidence event_id now).1

/-- The per-validator bound that actually holds: `locked + available` never
exceeds the registered initial stake. -/
def LockedAvailBounded (st : EmotionalStaking) (vid : String) (initial : ℕ) : Prop :=
  ∀ v, st.validators vid = some v → v.locked_stake + v.available_stake ≤ initial

theorem lockedAvailBounded_put (st : EmotionalStaking) (vid : String)
    (initial : ℕ) (tid : String) (w : StValidator)
    (h : LockedAvailBounded st vid initial)
    (hw : vid = tid → w.locked_stake + w.available_stake ≤ initial) :
    LockedAvailBounded (putValidator st tid w) vid initial := by
  intro v' hv'
  unfold putValidator at hv'
  simp only at hv'
  by_cases hk : vid = tid
  · rw [if_pos hk] at hv'
    cases hv'
    exact hw hk
  · rw [if_neg hk] at hv'
    exact h v' hv'

theorem lockedAvailBounded_applyOp (st : EmotionalStaking) (vid : String)
    (initial : ℕ) (h : LockedAvailBounded st vid initial) (op : StakeOp) :
    LockedAvailBounded (applyStakeOp st op) vid initial := by
  cases op with
  | lock tid amount =>
      show LockedAvailBounded (lock_stake st tid amount).1 vid initial
      unfold lock_stake
      split
      · exact h
      · next v htid =>
          split
          · exact h
          · refine lockedAvailBounded_put st vid initial tid _ h ?_
            intro hk
            have hb := h v (by rw [hk]; exact htid)
            simp only
            omega
  | unlock tid =>
      show LockedAvailBounded (unlock_stake st tid).1 vid initial
      unfold unlock_stake
      split
      · exact h
      · next v htid =>
          refine lockedAvailBounded_put st vid initial tid _ h ?_
          intro hk
          have hb := h v (by rw [hk]; exact htid)
          simp only
          omega
  | beginUnbonding tid amount =>
      show LockedAvailBounded (begin_unbonding st tid amount).1 vid initial
      unfold begin_unbonding
      split
      · exact h
      · next v htid =>
          split
          · exact h
          · split
            · exact h
            · refine lockedAvailBounded_put st vid initial tid _ h ?_
              intro hk
              have hb := h v (by rw [hk]; exact htid)
              simp only
              omega
  | completeUnbonding tid =>
      show LockedAvailBounded (complete_unbonding st tid).1 vid initial
      unfold complete_unbonding
      split
      · exact h
      · next v htid =>
          split
          · exact h
          · next unlock_epoch hue =>
              split
              · exact h
              · refine lockedAvailBounded_put st vid initial tid _ h ?_
                intro hk
                have hb := h v (by rw [hk]; exact htid)
                simp only
                omega
  | slash tid offense evidence event_id now =>
      show LockedAvailBounded (slash_validator st tid offense evidence event_id now).1 vid initial
      unfold slash_validator
      split
      · exact h
      · next v htid =>
          intro v' hv'
          refine lockedAvailBounded_put st vid initial tid _ h ?_ v' hv'
          intro hk
          have hb := h v (by rw [hk]; exact htid)
          simp only
          omega

/-- C8 (amended): for every validator, after registration and any sequence of
staking-ledger operations (`lock_stake`, `unlock_stake`, `begin_unbonding`,
`complete_unbonding`, `slash_validator`) with no external deposits, the
validator's `locked_stake + available_stake` is at most its initial stake.
(`slash_validator` deducts the slashed amount from the `stake` field only, so
the tighter bound `initial − total slashed` from the claim does not hold.) -/
theorem C8_stake_conservation (st₀ : EmotionalStaking) (vid address : String)
    (initial commission now : ℕ) (ops : List StakeOp)
    (hreg : (register_validator st₀ vid address initial commission now).2 = .ok ()) :
    LockedAvailBounded
      (ops.foldl applyStakeOp (register_validator st₀ vid address initial commission now).1)
      vid initial := by
  have hbase : LockedAvailBounded
      (register_validator st₀ vid address initial commission now).1 vid initial := by
    unfold register_validator at hreg ⊢
    by_cases h1 : initial < st₀.min_stake
    · rw [if_pos h1] at hreg
      exact absurd hreg (by simp)
    · rw [if_neg h1] at hreg ⊢
      by_cases h2 : 20 < commission
      · rw [if_pos h2] at hreg
        exact absurd hreg (by simp)
      · rw [if_neg h2]
        intro v' hv'
        unfold putValidator at hv'
        simp only [if_pos rfl] at hv'
        cases hv'
        simp
  clear hreg
  generalize (register_validator st₀ vid address initial commission now).1 = st₁ at hbase ⊢
  induction ops generalizing st₁ with
  | nil => exact hbase
  | cons op rest ih =>
      exact ih (applyStakeOp st₁ op) (lockedAvailBounded_applyOp st₁ vid initial hbase op)

/-- Witness for C8: register a validator with stake 10000 and run a lock, a
partial unbonding begin, and a Minor slash. -/
theorem C8_witness :
    LockedAvailBounded
      (List.foldl applyStakeOp
        (register_validator ⟨fun _ => none, [], 1000, 0⟩ "V" "addr" 10000 5 7).1
        [.lock "V" 4000, .beginUnbonding "V" 1000,
          .slash "V" .PoorEmotionalBehavior "low score" "evt-1" 8])
      "V" 10000 :=
  C8_stake_conservation ⟨fun _ => none, [], 1000, 0⟩ "V" "addr" 10000 5 7
    [.lock "V" 4000, .beginUnbonding "V" 1000,
      .slash "V" .PoorEmotionalBehavior "low score" "evt-1" 8] (by rfl)

/-- C8 counterexample: register a validator with stake 10000 (minimum 1000)
and apply one Minor slash.  The slashed amount is 100 and is recorded in
`total_penalties`, but `locked_stake + available_stake` is still 10000, which
exceeds `initial − slashed = 9900`: the claimed invariant
`locked + available ≤ initial − slashed` fails. -/
theorem C8_counterexample :
    ∃ v,
      (applyStakeOp (register_validator ⟨fun _ => none, [], 1000, 0⟩ "V" "addr" 10000 5 7).1
          (.slash "V" .PoorEmotionalBehavior "low score" "evt-1" 8)).validators "V" =
        some v ∧
      v.total_penalties = 100 ∧
      v.locked_stake + v.available_stake = 10000 ∧
      ¬ (v.locked_stake + v.available_stake ≤ 10000 - v.total_penalties) := by
  refine ⟨⟨"V", "addr", 9900, 0, 10000, none, 0, 95, true, 5, 7, 0, 100⟩, ?_, rfl, rfl, ?_⟩
  · rfl
  · decide

/-! ## Data model (`src/src/types.rs`)

The `types.rs` in the tree is a stale version whose `BlockHeader` lacks the
`epoch` field that `consensus.rs`, `fork.rs`, `checkpoint.rs` and the tests
read; the field is modelled from the spec (§3: "BlockHeader: height, epoch,
previous_hash, merkle_root, timestamp, validator_id, emotional_score,
consensus_strength").  Hashes, signatures and public keys are hex/JSON
strings in the source and stay opaque strings here; hashing and signature
verification are abstracted as oracles where used. -/

/-- A transaction (`types.rs` `struct Transaction`; `from` is a Lean keyword,
hence `from_addr`/`to_addr`). -/
structure Transaction where
  hash : String
  from_addr : String
  to_addr : String
  amount : ℕ
  fee : ℕ
  timestamp : ℕ
  signature : String
  public_key : String
  data : List ℕ
deriving DecidableEq, Repr

/-- A block header (`types.rs` `struct BlockHeader`, plus the spec's `epoch`
field). -/
structure BlockHeader where
  height : ℕ
  epoch : ℕ
  previous_hash : String
  merkle_root : String
  timestamp : ℕ
  difficulty : ℕ
  nonce : ℕ
  validator_id : String
  emotional_score : ℕ
  consensus_strength : ℕ
deriving DecidableEq, Repr

/-- A block (`types.rs` `struct Block`; the `emotional_proof` and
`consensus_metadata` fields are not consulted by any embedded operation and
are omitted). -/
structure Block where
  header : BlockHeader
  hash : String
  transactions : List Transaction
  signature : String
  proposer_public_key : String
deriving DecidableEq, Repr

/-! ## Checkpoint manager (`src/src/checkpoint.rs`)

`KeyPair::verify(data, sig, public_key)` is abstracted as an oracle
`verify : String → String → String → Except String Bool` (the signed payload
is a `String` in the source; `as_bytes` is injective).  `Uuid`/`SystemTime`
inputs are explicit arguments. -/

/-- A validator's signature share on a checkpoint
(`checkpoint.rs` `struct ValidatorSignature`). -/
structure ValidatorSignature where
  validator_id : String
  stake : ℕ
  signature : String
  public_key : String
deriving DecidableEq, Repr

/-- A checkpoint (`checkpoint.rs` `struct Checkpoint`). -/
structure Checkpoint where
  height : ℕ
  block_hash : String
  epoch : ℕ
  timestamp : ℕ
  validator_signatures : List ValidatorSignature
  total_stake_signed : ℕ
  state_root : String
deriving DecidableEq, Repr

/-- Checkpoint-manager state (`checkpoint.rs` `struct CheckpointManager`). -/
structure CheckpointManager where
  checkpoints : List Checkpoint
  checkpoint_interval : ℕ
  minimum_stake_percentage : ℕ
  total_network_stake : ℕ

/-- `CheckpointManager::new`: empty store, the given interval, a 67% stake
gate, and an unknown (zero) total network stake. -/
def CheckpointManager.new (checkpoint_interval : ℕ) : CheckpointManager :=
  ⟨[], checkpoint_interval, 67, 0⟩

/-- `CheckpointManager::update_total_stake`. -/
def update_total_stake (mgr : CheckpointManager) (total_stake : ℕ) :
    CheckpointManager :=
  { mgr with total_network_stake := total_stake }

/-- `CheckpointManager::get_latest_checkpoint` (`checkpoints.last()`). -/
def get_latest_checkpoint (mgr : CheckpointManager) : Option Checkpoint :=
  mgr.checkpoints.getLast?

/-- `CheckpointManager::create_checkpoint_data`: the canonical signed payload
`checkpoint:height:block_hash:epoch:state_root`. -/
def create_checkpoint_data (height : ℕ) (block_hash : String) (epoch : ℕ)
    (state_root : String) : String :=
  "checkpoint:" ++ toString height ++ ":" ++ block_hash ++ ":" ++
    toString epoch ++ ":" ++ state_root

/-- The signature loop of `verify_checkpoint`: propagate the first
verification error, return `Ok false` on the first invalid signature,
`Ok true` when all verify. -/
def verifySignatures (verify : String → String → String → Except String Bool)
    (data : String) : List ValidatorSignature → Except String Bool
  | [] => .ok true
  | vs :: rest =>
      match verify data vs.signature vs.public_key with
      | .error e => .error e
      | .ok false => .ok false
      | .ok true => verifySignatures verify data rest

/-- `CheckpointManager::verify_checkpoint`: error on an empty signature set,
verify every signature over the canonical payload, then apply the stake gate
`total_stake_signed*100/total_network_stake ≥ minimum_stake_percentage` —
skipped when the total network stake is zero (unknown). -/
def verify_checkpoint (verify : String → String → String → Except String Bool)
    (mgr : CheckpointManager) (cp : Checkpoint) : Except String Bool :=
  if cp.validator_signatures.isEmpty then
    .error "No validator signatures in checkpoint"
  else
    match verifySignatures verify
        (create_checkpoint_data cp.height cp.block_hash cp.epoch cp.state_root)
        cp.validator_signatures with
    | .error e => .error e
    | .ok false => .ok false
    | .ok true =>
        if 0 < mgr.total_network_stake ∧
            (cp.total_stake_signed * 100) / mgr.total_network_stake <
              mgr.minimum_stake_percentage then
          .ok false
        else .ok true

/-- The error message of `create_checkpoint`'s stake gate. -/
def insufficientStakeMsg (pct min_pct : ℕ) : String :=
  "Insufficient stake for checkpoint: " ++ toString pct ++ "% < " ++
    toString min_pct ++ "%"

/-- `CheckpointManager::create_checkpoint`: sum the signing stakes, apply the
stake gate (skipped when the total network stake is zero), build the
checkpoint from the block, run `verify_checkpoint` — note the source applies
`?` to its `Result<bool>`, so only an `Err` aborts and an `Ok(false)` outcome
is discarded — and push the checkpoint. -/
def create_checkpoint (verify : String → String → String → Except String Bool)
    (mgr : CheckpointManager) (block : Block)
    (validator_signatures : List ValidatorSignature) (now : ℕ) :
    CheckpointManager × Except String Checkpoint :=
  if 0 < mgr.total_network_stake ∧
      (((validator_signatures.map ValidatorSignature.stake).sum * 100) /
          mgr.total_network_stake) < mgr.minimum_stake_percentage then
    (mgr, .error (insufficientStakeMsg
      (((validator_signatures.map ValidatorSignature.stake).sum * 100) /
        mgr.total_network_stake)
      mgr.minimum_stake_percentage))
  else
    match verify_checkpoint verify mgr
        { height := block.header.height
          block_hash := block.hash
          epoch := block.header.epoch
          timestamp := now
          validator_signatures := validator_signatures
          total_stake_signed := (validator_signatures.map ValidatorSignature.stake).sum
          state_root := block.header.merkle_root } with
    | .error e => (mgr, .error e)
    | .ok _ =>
        ({ mgr with checkpoints := mgr.checkpoints ++
            [{ height := block.header.height
               block_hash := block.hash
               epoch := block.header.epoch
               timestamp := now
               validator_signatures := validator_signatures
               total_stake_signed := (validator_signatures.map ValidatorSignature.stake).sum
               state_root := block.header.merkle_root }] },
          .ok { height := block.header.height
                block_hash := block.hash
                epoch := block.header.epoch
                timestamp := now
                validator_signatures := validator_signatures
                total_stake_signed := (validator_signatures.map ValidatorSignature.stake).sum
                state_root := block.header.merkle_root })

/-- C9: with a 67% gate, (a) when the total network stake is known (positive)
and the signed stake is below 67% of it, `create_checkpoint` fails with the
insufficient-stake error and stores nothing; (b) when the signed stake
reaches 67% and every signature verifies over the canonical payload, it
succeeds and `get_latest_checkpoint` afterwards returns a checkpoint whose
height is the block's height; (c) when the total network stake is zero
(unknown), the stake gate is skipped and success needs only the verifying
signatures. -/
theorem C9_create_checkpoint
    (verify : String → String → String → Except String Bool)
    (mgr : CheckpointManager) (block : Block)
    (sigs : List ValidatorSignature) (now : ℕ)
    (hmin : mgr.minimum_stake_percentage = 67) :
    (0 < mgr.total_network_stake →
      (sigs.map ValidatorSignature.stake).sum * 100 < 67 * mgr.total_network_stake →
      (create_checkpoint verify mgr block sigs now).2 =
          .error (insufficientStakeMsg
            (((sigs.map ValidatorSignature.stake).sum * 100) / mgr.total_network_stake) 67) ∧
        (create_checkpoint verify mgr block sigs now).1 = mgr) ∧
    (sigs ≠ [] →
      verifySignatures verify
          (create_checkpoint_data block.header.height block.hash block.header.epoch
            block.header.merkle_root) sigs = .ok true →
      67 * mgr.total_network_stake ≤ (sigs.map ValidatorSignature.stake).sum * 100 →
      ∃ cp, (create_checkpoint verify mgr block sigs now).2 = .ok cp ∧
        get_latest_checkpoint (create_checkpoint verify mgr block sigs now).1 = some cp ∧
        cp.height = block.header.height ∧
        cp.total_stake_signed = (sigs.map ValidatorSignature.stake).sum) ∧
    (mgr.total_network_stake = 0 →
      sigs ≠ [] →
      verifySignatures verify
          (create_checkpoint_data block.header.height block.hash block.header.epoch
            block.header.merkle_root) sigs = .ok true →
      ∃ cp, (create_checkpoint verify mgr block sigs now).2 = .ok cp ∧
        get_latest_checkpoint (create_checkpoint verify mgr block sigs now).1 = some cp ∧
        cp.height = block.header.height) := by
  refine ⟨?_, ?_, ?_⟩
  · intro hpos hlt
    have hdiv : ((sigs.map ValidatorSignature.stake).sum * 100) /
        mgr.total_network_stake < 67 := by
      rw [Nat.div_lt_iff_lt_mul hpos]
      omega
    unfold create_checkpoint
    rw [hmin, if_pos ⟨hpos, hdiv⟩]
    exact ⟨rfl, rfl⟩
  · intro hne hver hge
    have hgate : ¬ (0 < mgr.total_network_stake ∧
        ((sigs.map ValidatorSignature.stake).sum * 100) / mgr.total_network_stake <
          mgr.minimum_stake_percentage) := by
      rw [hmin]
      rintro ⟨hpos, hdiv⟩
      rw [Nat.div_lt_iff_lt_mul hpos] at hdiv
      omega
    have hvc : verify_checkpoint verify mgr
        { height := block.header.height
          block_hash := block.hash
          epoch := block.header.epoch
          timestamp := now
          validator_signatures := sigs
          total_stake_signed := (sigs.map ValidatorSignature.stake).sum
          state_root := block.header.merkle_root } = .ok true := by
      unfold verify_checkpoint
      rw [if_neg (by simpa [List.isEmpty_iff] using hne)]
      simp only
      rw [hver]
      rw [if_neg hgate]
    refine ⟨⟨block.header.height, block.hash, block.header.epoch, now, sigs,
        (sigs.map ValidatorSignature.stake).sum, block.header.merkle_root⟩,
      ?_, ?_, rfl, rfl⟩
    · unfold create_checkpoint
      rw [if_neg hgate]
      rw [hvc]
    · unfold create_checkpoint
      rw [if_neg hgate]
      rw [hvc]
      unfold get_latest_checkpoint
      simp
  · intro hzero hne hver
    have hgate : ¬ (0 < mgr.total_network_stake ∧
        ((sigs.map ValidatorSignature.stake).sum * 100) / mgr.total_network_stake <
          mgr.minimum_stake_percentage) := by
      rw [hzero]
      rintro ⟨hpos, _⟩
      exact absurd hpos (by omega)
    have hvc : verify_checkpoint verify mgr
        { height := block.header.height
          block_hash := block.hash
          epoch := block.header.epoch
          timestamp := now
          validator_signatures := sigs
          total_stake_signed := (sigs.map ValidatorSignature.stake).sum
          state_root := block.header.merkle_root } = .ok true := by
      unfold verify_checkpoint
      rw [if_neg (by simpa [List.isEmpty_iff] using hne)]
      simp only
      rw [hver]
      rw [if_neg hgate]
    refine ⟨⟨block.header.height, block.hash, block.header.epoch, now, sigs,
        (sigs.map ValidatorSignature.stake).sum, block.header.merkle_root⟩,
      ?_, ?_, rfl⟩
    · unfold create_checkpoint
      rw [if_neg hgate]
      rw [hvc]
    · unfold create_checkpoint
      rw [if_neg hgate]
      rw [hvc]
      unfold get_latest_checkpoint
      simp

/-- Witness for C9: total network stake 10000; a single 5000-stake signature
fails the gate, a 7000-stake signature succeeds and the latest checkpoint has
the block's height (100). -/
theorem C9_witness :
    (create_checkpoint (fun _ _ _ => .ok true)
        (update_total_stake (CheckpointManager.new 100) 10000)
        ⟨⟨100, 10, "prev", "merkle_root", 1000, 0, 0, "validator1", 85, 80⟩,
          "hash100", [], "", ""⟩
        [⟨"validator1", 5000, "sig", "pk"⟩] 12).2 =
      .error (insufficientStakeMsg 50 67) ∧
    ∃ cp, (create_checkpoint (fun _ _ _ => .ok true)
        (update_total_stake (CheckpointManager.new 100) 10000)
        ⟨⟨100, 10, "prev", "merkle_root", 1000, 0, 0, "validator1", 85, 80⟩,
          "hash100", [], "", ""⟩
        [⟨"validator1", 7000, "sig", "pk"⟩] 12).2 = .ok cp ∧
      get_latest_checkpoint (create_checkpoint (fun _ _ _ => .ok true)
        (update_total_stake (CheckpointManager.new 100) 10000)
        ⟨⟨100, 10, "prev", "merkle_root", 1000, 0, 0, "validator1", 85, 80⟩,
          "hash100", [], "", ""⟩
        [⟨"validator1", 7000, "sig", "pk"⟩] 12).1 = some cp ∧
      cp.height = 100 := by
  constructor
  · exact ((C9_create_checkpoint (fun _ _ _ => .ok true)
      (update_total_stake (CheckpointManager.new 100) 10000)
      ⟨⟨100, 10, "prev", "merkle_root", 1000, 0, 0, "validator1", 85, 80⟩,
        "hash100", [], "", ""⟩
      [⟨"validator1", 5000, "sig", "pk"⟩] 12 rfl).1 (by decide) (by decide)).1
  · rcases (C9_create_checkpoint (fun _ _ _ => .ok true)
        (update_total_stake (CheckpointManager.new 100) 10000)
        ⟨⟨100, 10, "prev", "merkle_root", 1000, 0, 0, "validator1", 85, 80⟩,
          "hash100", [], "", ""⟩
        [⟨"validator1", 7000, "sig", "pk"⟩] 12 rfl).2.1
        (by decide) rfl (by decide) with ⟨cp, hok, hlatest, hheight, _⟩
    exact ⟨cp, hok, hlatest, hheight⟩

/-! ## Block validation (`src/src/biometric.rs` / spec §8 scenario 5)

`consensus.rs` and the integration tests call
`validator.validate_block(block, expected_previous_hash, expected_height,
expected_epoch)` and the tests assert the rejection reason contains
`"Epoch mismatch"`, but the `validate_block` in the tree's `biometric.rs` is
a stale three-argument version with no epoch check.  The four-argument
version is therefore modelled: its eight checks are taken verbatim from the
stale version, and the epoch check is inserted after the height check, as the
spec's expected `(previous_hash, height, epoch)` tuple orders them.

Hashing (`verify_hash`, `calculate_merkle_root`) and signature verification
(`verify_signature`) are abstracted as oracle arguments; `SystemTime::now`
is the explicit `now`. -/

/-- First transaction index with a bad hash, if any (check 4 of
`validate_block`). -/
def firstBadTxHash (txHashOk : Transaction → Bool) :
    List Transaction → ℕ → Option ℕ
  | [], _ => none
  | tx :: rest, i =>
      if txHashOk tx = false then some i else firstBadTxHash txHashOk rest (i + 1)

/-- First transaction signature failure, if any, with its error message
(check 9 of `validate_block`). -/
def firstBadTxSig (txSig : Transaction → Except String Bool) :
    List Transaction → ℕ → Option String
  | [], _ => none
  | tx :: rest, i =>
      match txSig tx with
      | .error e => some ("Transaction " ++ toString i ++ " signature error: " ++ e)
      | .ok false => some ("Transaction " ++ toString i ++ " signature verification failed")
      | .ok true => firstBadTxSig txSig rest (i + 1)

/-- The epoch-mismatch rejection reason, in the format of the neighbouring
height-mismatch message. -/
def epochMismatchMsg (expected got : ℕ) : String :=
  "Epoch mismatch: expected " ++ toString expected ++ ", got " ++ toString got

/-- Modelled from the spec: the four-argument
`EmotionalValidator::validate_block` (block validation against the expected
`(previous_hash, height, epoch)` tuple) that `consensus.rs` and the
integration tests call is missing from `src/src/biometric.rs`, which holds a
stale three-argument version.  All other checks and messages are the stale
version's; the epoch check is the spec's replay-epoch rejection. -/
def validate_block (blockHashOk : Block → Bool) (txHashOk : Transaction → Bool)
    (merkleRoot : List Transaction → String)
    (blockSig : Block → Except String Bool)
    (txSig : Transaction → Except String Bool)
    (block : Block) (expected_previous_hash : String)
    (expected_height expected_epoch : ℕ) (now : ℕ) : Except String Unit :=
  if blockHashOk block = false then
    .error "Block hash does not match content"
  else if block.header.previous_hash ≠ expected_previous_hash then
    .error ("Previous hash mismatch: expected " ++ expected_previous_hash ++
      ", got " ++ block.header.previous_hash)
  else if block.header.height ≠ expected_height then
    .error ("Block height mismatch: expected " ++ toString expected_height ++
      ", got " ++ toString block.header.height)
  else if block.header.epoch ≠ expected_epoch then
    .error (epochMismatchMsg expected_epoch block.header.epoch)
  else
    match firstBadTxHash txHashOk block.transactions 0 with
    | some i => .error ("Transaction " ++ toString i ++ " has invalid hash")
    | none =>
        if merkleRoot block.transactions ≠ block.header.merkle_root then
          .error ("Merkle root mismatch: expected " ++ merkleRoot block.transactions ++
            ", got " ++ block.header.merkle_root)
        else if now + 5000 < block.header.timestamp then
          .error "Block timestamp is too far in the future"
        else if block.header.timestamp < now - 3600000 then
          .error "Block timestamp is too old (>1 hour)"
        else if block.header.validator_id = "" then
          .error "Block has no validator ID"
        else
          match blockSig block with
          | .error e => .error ("Block signature error: " ++ e)
          | .ok false => .error "Block signature verification failed"
          | .ok true =>
              match firstBadTxSig txSig block.transactions 0 with
              | some msg => .error msg
              | none => .ok ()

/-- C2: whenever the block's header epoch differs from the expected epoch of
the round, `validate_block` rejects with a reason that starts with
"Epoch mismatch", even when every other validation check passes. -/
theorem C2_validate_block_epoch_mismatch
    (blockHashOk : Block → Bool) (txHashOk : Transaction → Bool)
    (merkleRoot : List Transaction → String)
    (blockSig : Block → Except String Bool)
    (txSig : Transaction → Except String Bool)
    (block : Block) (expected_previous_hash : String)
    (expected_height expected_epoch : ℕ) (now : ℕ)
    (hepoch : block.header.epoch ≠ expected_epoch)
    (h1 : blockHashOk block = true)
    (h2 : block.header.previous_hash = expected_previous_hash)
    (h3 : block.header.height = expected_height)
    (h4 : ∀ tx ∈ block.transactions, txHashOk tx = true)
    (h5 : merkleRoot block.transactions = block.header.merkle_root)
    (h6 : block.header.timestamp ≤ now + 5000)
    (h7 : now - 3600000 ≤ block.header.timestamp)
    (h8 : block.header.validator_id ≠ "")
    (h9 : blockSig block = .ok true)
    (h10 : ∀ tx ∈ block.transactions, txSig tx = .ok true) :
    validate_block blockHashOk txHashOk merkleRoot blockSig txSig block
        expected_previous_hash expected_height expected_epoch now =
      .error (epochMismatchMsg expected_epoch block.header.epoch) ∧
    "Epoch mismatch".data <+:
      (epochMismatchMsg expected_epoch block.header.epoch).data := by
  constructor
  · unfold validate_block
    rw [if_neg (by rw [h1]; simp),
      if_neg (by rw [h2]; exact fun h => h rfl),
      if_neg (by rw [h3]; exact fun h => h rfl),
      if_pos hepoch]
  · have hpre : "Epoch mismatch".data <+: "Epoch mismatch: expected ".data := by
      decide
    have hshape : (epochMismatchMsg expected_epoch block.header.epoch).data =
        "Epoch mismatch: expected ".data ++
          (toString expected_epoch ++ ", got " ++ toString block.header.epoch).data := by
      unfold epochMismatchMsg
      simp [String.data_append]
    rw [hshape]
    exact hpre.trans (List.prefix_append _ _)

/-- Witness for C2: the spec's replay scenario — a block signed for epoch 1
validated against expected epoch 2, with every other check passing. -/
theorem C2_witness :
    validate_block (fun _ => true) (fun _ => true) (fun _ => "merkle")
        (fun _ => .ok true) (fun _ => .ok true)
        ⟨⟨1, 1, "prev", "merkle", 1000, 0, 0, "validator-1", 80, 0⟩, "h", [], "sig", "pk"⟩
        "prev" 1 2 1000 =
      .error (epochMismatchMsg 2 1) ∧
    "Epoch mismatch".data <+: (epochMismatchMsg 2 1).data :=
  C2_validate_block_epoch_mismatch (fun _ => true) (fun _ => true)
    (fun _ => "merkle") (fun _ => .ok true) (fun _ => .ok true)
    ⟨⟨1, 1, "prev", "merkle", 1000, 0, 0, "validator-1", 80, 0⟩, "h", [], "sig", "pk"⟩
    "prev" 1 2 1000 (by decide) rfl rfl rfl (by simp) rfl (by simp) (by simp)
    (by decide) rfl (by simp)

/-! ## Voting phase (`src/src/consensus.rs`, `execute_voting`)

Each committee member validates the block (the outcome of the member's
`validate_block` call — which involves clocks and crypto — is abstracted as
`valRes : String → Except String Unit` indexed by the member's id), a vote is
built with `Vote::new(id, block.hash, block.header.epoch, 0, score,
approved)`, and the vote is recorded in the Byzantine detector.  A vote the
detector rejects is slashed, counted in `byzantine_count` and skipped;
recorded votes feed `approved_count`, `total_emotional_score` and the `votes`
list.  The quorum is `(committee_size as f64 * (byzantine_threshold as f64 /
100.0)).ceil() as usize`, the exact ceiling `⌈k·t/100⌉` for the configured
ranges, modelled as `(k*t + 99) / 100`.

The average `total_emotional_score / participant_count` is a `u32` division
that panics when `participant_count = 0` (every committee vote rejected by
the detector); the embedding returns `none` for that panic. -/

/-- The two configuration fields `execute_voting` reads
(`consensus.rs` `struct ConsensusConfig`). -/
structure ConsensusConfig where
  committee_size : ℕ
  byzantine_threshold : ℕ
deriving DecidableEq, Repr

/-- A committee member as `execute_voting` consumes it: its id and its
current emotional score. -/
structure CommitteeMember where
  id : String
  emotional_score : ℕ
deriving DecidableEq, Repr

/-- The result of a voting round (`types.rs` `struct VotingResult`). -/
structure VotingResult where
  success : Bool
  consensus_strength : ℕ
  participant_count : ℕ
  byzantine_count : ℕ
  average_emotional_score : ℕ
  participants : List String
  votes : List Vote
  reason : Option String
deriving DecidableEq, Repr

/-- The committee loop of `execute_voting`: returns the final detector state,
the recorded votes, `approved_count`, `total_emotional_score` and
`byzantine_count`. -/
def votingLoop (valRes : String → Except String Unit) (block : Block) (now : ℕ) :
    List CommitteeMember → ByzantineDetector →
      ByzantineDetector × List Vote × ℕ × ℕ × ℕ
  | [], det => (det, [], 0, 0, 0)
  | m :: rest, det =>
      match record_vote det
          { validator_id := m.id
            block_hash := block.hash
            epoch := block.header.epoch
            round := 0
            emotional_score := m.emotional_score
            approved := match valRes m.id with | .ok _ => true | .error _ => false
            reason := match valRes m.id with | .ok _ => none | .error e => some e
            signature := ""
            timestamp := now } now with
      | (det', .error _) =>
          match votingLoop valRes block now rest det' with
          | (det'', votes, ac, ts, bc) => (det'', votes, ac, ts, bc + 1)
      | (det', .ok _) =>
          match votingLoop valRes block now rest det' with
          | (det'', votes, ac, ts, bc) =>
              (det'',
                { validator_id := m.id
                  block_hash := block.hash
                  epoch := block.header.epoch
                  round := 0
                  emotional_score := m.emotional_score
                  approved := match valRes m.id with | .ok _ => true | .error _ => false
                  reason := match valRes m.id with | .ok _ => none | .error e => some e
                  signature := ""
                  timestamp := now } :: votes,
                ac + (match valRes m.id with | .ok _ => 1 | .error _ => 0),
                ts + m.emotional_score, bc)

/-- Round the nonnegative fraction `n / d` (with `d > 0`) to the nearest
natural number, ties to even: the IEEE-754 default rounding of the final
step of every binary64 operation, on the exact fraction `n / d`. -/
def rnEvenNat (n d : ℕ) : ℕ :=
  if 2 * (n % d) < d then n / d
  else if d < 2 * (n % d) then n / d + 1
  else if (n / d) % 2 = 0 then n / d else n / d + 1

/-- The binary exponent `⌊log₂ (n / d)⌋` of a positive fraction, shifted by
`10` so it stays a natural number: the unique `i` with
`2^i ≤ 1024 · n / d < 2^(i+1)`, searched over `i ∈ [0, 74]`, that is
`⌊log₂ (n / d)⌋ ∈ [-10, 64]`.  That range covers every value the quorum
computation produces: `byzantine_threshold / 100 ≥ 1/100 > 2^-10` and
`committee_size × that < 2^64` for any `usize` committee size. -/
def findExpAux (n d : ℕ) : ℕ :=
  ((List.range 75).filter
    (fun i => decide (2 ^ i * d ≤ 1024 * n) &&
      decide (1024 * n < 2 ^ (i + 1) * d))).headI

/-- The IEEE-754 binary64 value nearest the positive fraction `n / d` in the
normal range (53-bit significand, round to nearest, ties to even), returned
as an exact unreduced fraction (numerator, denominator): the significand is
`rnEvenNat` of `n / d` scaled into `[2^52, 2^53)` by `2^(52 - e)` where
`e = findExpAux n d - 10` is the binary exponent (the scaling and the result
`m · 2^(e-52)` are each split on the sign of the exponent so everything
stays in `ℕ`: `52 - e = 62 - i` and `e - 52 = i - 62` for the shifted
`i`).  This is the exact result of every correctly rounded binary64
operation whose mathematical value is `n / d`; overflow, subnormals and
negatives do not arise in the quorum computation this models. -/
def roundF64 (n d : ℕ) : ℕ × ℕ :=
  if 62 ≤ findExpAux n d then
    (rnEvenNat n (d * 2 ^ (findExpAux n d - 62)) * 2 ^ (findExpAux n d - 62), 1)
  else
    (rnEvenNat (n * 2 ^ (62 - findExpAux n d)) d, 2 ^ (62 - findExpAux n d))

/-- `execute_voting`'s quorum, computed exactly as the source writes it:
`(committee_size as f64 * (byzantine_threshold as f64 / 100.0)).ceil() as
usize`.  `committee_size as f64` and `byzantine_threshold as f64` are exact
for values below `2^53` (every legal config: the threshold is validated to
`51..=100`), `100.0` is exact, the division and the multiplication each
round their exact real result to the nearest binary64 (`roundF64`), and
`.ceil() as usize` of a binary64 of this magnitude is the exact ceiling
`(pn + pd - 1) / pd` of the fraction.  This can EXCEED the exact ceiling
`⌈committee_size × byzantine_threshold / 100⌉`: at `(25, 56)` the rounded
`0.56` is slightly above `56/100`, the product rounds to just above `14`,
and `.ceil()` gives `15` where the exact ceiling is `14`. -/
def requiredVotes (cfg : ConsensusConfig) : ℕ :=
  let q := roundF64 cfg.byzantine_threshold 100
  let p := roundF64 (cfg.committee_size * q.1) q.2
  (p.1 + p.2 - 1) / p.2

/-- The quorum the CLAIM (and the spec's quorum rule) describes: the exact
ceiling `⌈committee_size × byzantine_threshold / 100⌉`, written from the
claim's words for comparison with `requiredVotes`, which is translated from
the source's `f64` computation. -/
def claimRequiredVotes (k t : ℕ) : ℕ := (k * t + 99) / 100

/-- `ProofOfEmotionEngine::execute_voting` after the committee loop: tally
the quorum and build the `VotingResult`; `none` models the division-by-zero
panic of `total_emotional_score / participant_count` when no vote was
recorded. -/
def execute_voting (cfg : ConsensusConfig)
    (committee : List CommitteeMember) (block : Block)
    (valRes : String → Except String Unit) (det : ByzantineDetector)
    (now : ℕ) : ByzantineDetector × Option VotingResult :=
  match votingLoop valRes block now committee det with
  | (det', votes, approved_count, total_emotional_score, byzantine_count) =>
      if votes.length = 0 then (det', none)
      else
        (det',
          some
            { success := requiredVotes cfg ≤ approved_count
              consensus_strength := approved_count * 100 / committee.length
              participant_count := votes.length
              byzantine_count := byzantine_count
              average_emotional_score := total_emotional_score / votes.length
              participants := committee.map CommitteeMember.id
              votes := votes
              reason :=
                if requiredVotes cfg ≤ approved_count then none
                else some "Insufficient votes" })

theorem votingLoop_approved_count (valRes : String → Except String Unit)
    (block : Block) (now : ℕ) (committee : List CommitteeMember)
    (det : ByzantineDetector) :
    (votingLoop valRes block now committee det).2.2.1 =
      ((votingLoop valRes block now committee det).2.1).countP (·.approved) := by
  induction committee generalizing det with
  | nil => rfl
  | cons m rest ih =>
      unfold votingLoop
      cases hrec : record_vote det
          { validator_id := m.id
            block_hash := block.hash
            epoch := block.header.epoch
            round := 0
            emotional_score := m.emotional_score
            approved := match valRes m.id with | .ok _ => true | .error _ => false
            reason := match valRes m.id with | .ok _ => none | .error e => some e
            signature := ""
            timestamp := now } now with
      | mk det' res =>
          cases res with
          | error e =>
              simp only
              cases hloop : votingLoop valRes block now rest det' with
              | mk det'' rest4 =>
                  cases rest4 with
                  | mk votes rest3 =>
                      have := ih det'
                      rw [hloop] at this
                      simpa using this
          | ok u =>
              simp only
              cases hloop : votingLoop valRes block now rest det' with
              | mk det'' rest4 =>
                  cases rest4 with
                  | mk votes rest3 =>
                      have := ih det'
                      rw [hloop] at this
                      cases hval : valRes m.id with
                      | ok v =>
                          simp only [hval, List.countP_cons]
                          simp [hval] at this
                          simp [this]
                      | error e =>
                          simp only [hval, List.countP_cons]
                          simp [hval] at this
                          simp [this]

/-- C1 (amended): whenever the voting phase completes (at least one vote
recorded), it succeeds exactly when the number of approving recorded votes
is at least `requiredVotes` — the quorum computed in IEEE-754 binary64 as
the source writes it, `(committee_size as f64 * (byzantine_threshold as f64
/ 100.0)).ceil() as usize`.  This quorum usually equals the exact ceiling
`⌈committee_size × byzantine_threshold / 100⌉` the claim states, but not
always: double rounding makes it `15` instead of `14` at
`(committee_size, byzantine_threshold) = (25, 56)`. -/
theorem C1_voting_quorum (cfg : ConsensusConfig)
    (committee : List CommitteeMember) (block : Block)
    (valRes : String → Except String Unit) (det : ByzantineDetector)
    (now : ℕ) (det' : ByzantineDetector) (r : VotingResult)
    (h : execute_voting cfg committee block valRes det now = (det', some r)) :
    r.success = true ↔ requiredVotes cfg ≤ r.votes.countP (·.approved) := by
  unfold execute_voting at h
  rcases hloop : votingLoop valRes block now committee det with ⟨d1, votes, ac, ts, bc⟩
  rw [hloop] at h
  simp only at h
  by_cases hlen : votes.length = 0
  · rw [if_pos hlen] at h
    have h2 := congrArg Prod.snd h
    simp at h2
  · rw [if_neg hlen] at h
    have hr : r = { success := requiredVotes cfg ≤ ac
                    consensus_strength := ac * 100 / committee.length
                    participant_count := votes.length
                    byzantine_count := bc
                    average_emotional_score := ts / votes.length
                    participants := committee.map CommitteeMember.id
                    votes := votes
                    reason := if requiredVotes cfg ≤ ac then none
                      else some "Insufficient votes" } := by
      have := congrArg Prod.snd h
      simpa using this.symm
    have hac : ac = votes.countP (·.approved) := by
      have := votingLoop_approved_count valRes block now committee det
      rw [hloop] at this
      simpa using this
    rw [hr]
    simp only [decide_eq_true_eq]
    rw [hac]

/-- Witness for C1: committee of three, threshold 67 (required = 3), all
three votes valid and recorded: success with exactly 3 approving votes. -/
theorem C1_witness :
    ({ success := true, consensus_strength := 100, participant_count := 3,
        byzantine_count := 0, average_emotional_score := 85,
        participants := ["a", "b", "c"],
        votes := [⟨"a", "H", 1, 0, 80, true, none, "", 7⟩,
          ⟨"b", "H", 1, 0, 85, true, none, "", 7⟩,
          ⟨"c", "H", 1, 0, 90, true, none, "", 7⟩],
        reason := none } : VotingResult).success = true ↔
      requiredVotes ⟨3, 67⟩ ≤
        ({ success := true, consensus_strength := 100, participant_count := 3,
            byzantine_count := 0, average_emotional_score := 85,
            participants := ["a", "b", "c"],
            votes := [⟨"a", "H", 1, 0, 80, true, none, "", 7⟩,
              ⟨"b", "H", 1, 0, 85, true, none, "", 7⟩,
              ⟨"c", "H", 1, 0, 90, true, none, "", 7⟩],
            reason := none } : VotingResult).votes.countP (·.approved) :=
  C1_voting_quorum ⟨3, 67⟩ [⟨"a", 80⟩, ⟨"b", 85⟩, ⟨"c", 90⟩]
    ⟨⟨1, 1, "prev", "m", 5, 0, 0, "a", 80, 0⟩, "H", [], "", ""⟩
    (fun _ => .ok ()) ⟨fun _ => [], []⟩ 7
    (execute_voting ⟨3, 67⟩ [⟨"a", 80⟩, ⟨"b", 85⟩, ⟨"c", 90⟩]
      ⟨⟨1, 1, "prev", "m", 5, 0, 0, "a", 80, 0⟩, "H", [], "", ""⟩
      (fun _ => .ok ()) ⟨fun _ => [], []⟩ 7).1
    { success := true, consensus_strength := 100, participant_count := 3,
      byzantine_count := 0, average_emotional_score := 85,
      participants := ["a", "b", "c"],
      votes := [⟨"a", "H", 1, 0, 80, true, none, "", 7⟩,
        ⟨"b", "H", 1, 0, 85, true, none, "", 7⟩,
        ⟨"c", "H", 1, 0, 90, true, none, "", 7⟩],
      reason := none }
    (by rfl)

/-- 25 distinct committee member ids for the C1 counterexample run. -/
def C1ceIds : List String :=
  ["a", "b", "c", "d", "e", "f", "g", "h", "i", "j", "k", "l", "m",
   "n", "o", "p", "q", "r", "s", "t", "u", "v", "w", "x", "y"]

/-- The 14 of them whose biometric validation passes (an approving vote). -/
def C1ceApprove : List String :=
  ["a", "b", "c", "d", "e", "f", "g", "h", "i", "j", "k", "l", "m", "n"]

/-- A committee of 25 members, emotional score 80 each. -/
def C1ceCommittee : List CommitteeMember :=
  C1ceIds.map (fun s => ⟨s, 80⟩)

/-- Validation outcome per member: the first 14 approve, the rest reject. -/
def C1ceVal : String → Except String Unit :=
  fun s => if s ∈ C1ceApprove then .ok () else .error "validation failed"

/-- Counterexample to C1's exact-ceiling quorum: at the legal config
`committee_size = 25`, `byzantine_threshold = 56` (the threshold validation
accepts `51..=100`), the exact ceiling `⌈25 × 56 / 100⌉` is `14`, but the
source's binary64 computation rounds `56/100` up, the product `25 × that`
lands just above `14`, and `.ceil()` yields `15`.  A run with 25 recorded
votes of which exactly 14 approve therefore fails (`success = false`)
although the approving votes reach the ceiling the claim states. -/
theorem C1_counterexample :
    claimRequiredVotes 25 56 = 14 ∧
    requiredVotes ⟨25, 56⟩ = 15 ∧
    ((execute_voting ⟨25, 56⟩ C1ceCommittee
        ⟨⟨1, 1, "prev", "m", 5, 0, 0, "a", 80, 0⟩, "H", [], "", ""⟩
        C1ceVal ⟨fun _ => [], []⟩ 7).2.map
      (fun r => (r.success, r.votes.countP (·.approved)))) =
      some (false, 14) := by
  refine ⟨rfl, rfl, rfl⟩

/-- C10: the average `total_emotional_score / participant_count` divides by
the number of detector-accepted votes only; whenever at least one committee
member's vote is accepted the division is well defined (the voting phase
completes with `participant_count = ` number of recorded votes `> 0`), and
there is no guard for the case where the detector rejects every vote: with a
one-member committee whose member already voted on a different block hash in
the same epoch, every vote is rejected and the phase reaches the division
with `participant_count = 0` (modelled as `none`, the `u32`
division-by-zero panic). -/
theorem C10_voting_average_guard :
    (∀ (cfg : ConsensusConfig) (committee : List CommitteeMember) (block : Block)
        (valRes : String → Except String Unit) (det : ByzantineDetector) (now : ℕ),
      (votingLoop valRes block now committee det).2.1 ≠ [] →
      ∃ det' r, execute_voting cfg committee block valRes det now = (det', some r) ∧
        r.participant_count = (votingLoop valRes block now committee det).2.1.length ∧
        0 < r.participant_count) ∧
    (execute_voting ⟨3, 67⟩ [⟨"V", 80⟩]
        ⟨⟨1, 1, "prev", "m", 5, 0, 0, "V", 80, 0⟩, "H", [], "", ""⟩
        (fun _ => .ok ())
        ⟨fun k => if k = ("V", 1) then [⟨"V", "OTHER", 1, 0, 80, true, none, "", 5⟩]
          else [], []⟩ 7).2 = none := by
  constructor
  · intro cfg committee block valRes det now hne
    rcases hloop : votingLoop valRes block now committee det with ⟨d1, votes, ac, ts, bc⟩
    have hlen : votes.length ≠ 0 := by
      rw [hloop] at hne
      simpa [List.length_eq_zero] using hne
    refine ⟨d1,
      { success := requiredVotes cfg ≤ ac
        consensus_strength := ac * 100 / committee.length
        participant_count := votes.length
        byzantine_count := bc
        average_emotional_score := ts / votes.length
        participants := committee.map CommitteeMember.id
        votes := votes
        reason := if requiredVotes cfg ≤ ac then none else some "Insufficient votes" },
      ?_, ?_, ?_⟩
    · unfold execute_voting
      rw [hloop]
      simp only
      rw [if_neg hlen]
    · rfl
    · simpa using Nat.pos_of_ne_zero hlen
  · rfl

/-- Witness for C10: a two-member committee with a fresh detector records
both votes, so the average is well defined. -/
theorem C10_witness :
    (∃ det' r, execute_voting ⟨3, 67⟩ [⟨"a", 80⟩, ⟨"b", 90⟩]
        ⟨⟨1, 1, "prev", "m", 5, 0, 0, "a", 80, 0⟩, "H", [], "", ""⟩
        (fun _ => .ok ()) ⟨fun _ => [], []⟩ 7 = (det', some r) ∧
      r.participant_count =
        (votingLoop (fun _ => .ok ())
          ⟨⟨1, 1, "prev", "m", 5, 0, 0, "a", 80, 0⟩, "H", [], "", ""⟩ 7
          [⟨"a", 80⟩, ⟨"b", 90⟩] ⟨fun _ => [], []⟩).2.1.length ∧
      0 < r.participant_count) ∧
    (execute_voting ⟨3, 67⟩ [⟨"V", 80⟩]
        ⟨⟨1, 1, "prev", "m", 5, 0, 0, "V", 80, 0⟩, "H", [], "", ""⟩
        (fun _ => .ok ())
        ⟨fun k => if k = ("V", 1) then [⟨"V", "OTHER", 1, 0, 80, true, none, "", 5⟩]
          else [], []⟩ 7).2 = none :=
  ⟨C10_voting_average_guard.1 ⟨3, 67⟩ [⟨"a", 80⟩, ⟨"b", 90⟩]
      ⟨⟨1, 1, "prev", "m", 5, 0, 0, "a", 80, 0⟩, "H", [], "", ""⟩
      (fun _ => .ok ()) ⟨fun _ => [], []⟩ 7 (by decide),
    C10_voting_average_guard.2⟩

/-! ## Committee selection (`src/src/consensus.rs`, `select_committee`)

`select_committee` returns the whole eligible set when it fits the configured
committee size, and otherwise feeds the eligible validators through a bounded
`std::collections::BinaryHeap<OrderedValidator>` whose `Ord` compares ONLY the
integer score, reversed (`other.score.cmp(&self.score)`), popping whenever the
heap exceeds the committee size, and collects the survivors in the heap's
underlying vector order.

The integer score is `(score as f64 * (stake as f64).sqrt() * (reputation as
f64 / 100.0) * 1000.0) as u64`; the ordering logic never looks inside it, so
each candidate carries its already-computed integer score (equal
`(emotional_score, stake, reputation)` inputs give bit-identical `f64`
results, hence equal integer scores).

The heap is modelled index-faithfully after Rust's std `BinaryHeap`:
`push` appends and sifts up while the new element is `Ord`-greater (here:
strictly smaller score) than its parent; `pop` removes `data[0]`, moves the
last element to the root and runs `sift_down_to_bottom`, which walks the hole
to the bottom always promoting the `Ord`-greater child (here: the
smaller-or-equal score child, ties picking the right child, from
`child += (hole.get(child) <= hole.get(child + 1)) as usize`) and then sifts
the moved element up.  The sift functions are written with explicit fuel
(`fuel = the start index` for sift-up, `fuel = the array size` for
sift-down, both sufficient) to keep them structurally recursive. -/

/-- A committee-selection candidate: its fixed-point integer score and
validator id. -/
structure CommitteeCand where
  score : ℕ
  vid : String
deriving DecidableEq, Repr

instance : Inhabited CommitteeCand := ⟨⟨0, ""⟩⟩

/-- A Rust `Vec` as a length plus a total index function (entries at or
beyond `size` are irrelevant). -/
structure RVec (α : Type) where
  size : ℕ
  get : ℕ → α

/-- `Vec::push`. -/
def RVec.pushBack (a : RVec α) (x : α) : RVec α :=
  ⟨a.size + 1, fun t => if t = a.size then x else a.get t⟩

/-- Swap two entries. -/
def RVec.swap (a : RVec α) (i j : ℕ) : RVec α :=
  ⟨a.size, fun t => if t = i then a.get j else if t = j then a.get i else a.get t⟩

/-- The entries in vector order. -/
def RVec.toList (a : RVec α) : List α := (List.range a.size).map a.get

/-- The entries as a multiset. -/
def RVec.mset (a : RVec α) : Multiset α :=
  Multiset.map a.get (Multiset.range a.size)

theorem RVec.size_swap (a : RVec α) (i j : ℕ) : (a.swap i j).size = a.size := rfl

theorem RVec.mset_toList (a : RVec α) : (a.toList : Multiset α) = a.mset := by
  unfold RVec.toList RVec.mset
  rfl

theorem RVec.length_toList (a : RVec α) : a.toList.length = a.size := by
  unfold RVec.toList
  simp

theorem RVec.card_mset (a : RVec α) : Multiset.card a.mset = a.size := by
  unfold RVec.mset
  simp

theorem mset_map_swapFn (n i j : ℕ) (hi : i < n) (hj : j < n) :
    Multiset.map (fun t => if t = i then j else if t = j then i else t)
      (Multiset.range n) = Multiset.range n := by
  have hfun : (fun t => if t = i then j else if t = j then i else t) =
      fun t => Equiv.swap i j t := by
    funext t
    rw [Equiv.swap_apply_def]
  rw [hfun]
  have hinj : Function.Injective fun t => Equiv.swap i j t :=
    (Equiv.swap i j).injective
  have hsub : Finset.image (fun t => Equiv.swap i j t) (Finset.range n) ⊆
      Finset.range n := by
    intro x hx
    rcases Finset.mem_image.mp hx with ⟨t, ht, rfl⟩
    have ht' := Finset.mem_range.mp ht
    rw [Equiv.swap_apply_def]
    by_cases h1 : t = i
    · simp only [h1, if_pos rfl]
      exact Finset.mem_range.mpr hj
    · rw [if_neg h1]
      by_cases h2 : t = j
      · rw [if_pos h2]
        exact Finset.mem_range.mpr hi
      · rw [if_neg h2]
        exact Finset.mem_range.mpr ht'
  have hcard : (Finset.range n).card ≤
      (Finset.image (fun t => Equiv.swap i j t) (Finset.range n)).card := by
    rw [Finset.card_image_of_injective _ hinj]
  have heq := Finset.eq_of_subset_of_card_le hsub hcard
  have hval := congrArg Finset.val heq
  rw [Finset.image_val] at hval
  have hnodup : (Multiset.map (fun t => Equiv.swap i j t) (Finset.range n).val).Nodup :=
    Multiset.Nodup.map hinj (Finset.range n).nodup
  rw [Multiset.dedup_eq_self.mpr hnodup] at hval
  exact hval

theorem RVec.mset_swap (a : RVec α) (i j : ℕ) (hi : i < a.size) (hj : j < a.size) :
    (a.swap i j).mset = a.mset := by
  unfold RVec.mset RVec.swap
  simp only
  have hcomp : (fun t => if t = i then a.get j else if t = j then a.get i else a.get t) =
      fun t => a.get (if t = i then j else if t = j then i else t) := by
    funext t
    by_cases h1 : t = i
    · simp [h1]
    · by_cases h2 : t = j
      · by_cases h3 : j = i <;> simp [h1, h2, h3]
      · simp [h1, h2]
  rw [hcomp]
  have := Multiset.map_map a.get
    (fun t => if t = i then j else if t = j then i else t) (Multiset.range a.size)
  rw [show (Multiset.map (fun t => a.get (if t = i then j else if t = j then i else t))
      (Multiset.range a.size)) = Multiset.map a.get
      (Multiset.map (fun t => if t = i then j else if t = j then i else t)
        (Multiset.range a.size)) from (Multiset.map_map ..).symm]
  rw [mset_map_swapFn a.size i j hi hj]

theorem RVec.mset_pushBack (a : RVec α) (x : α) :
    (a.pushBack x).mset = x ::ₘ a.mset := by
  unfold RVec.mset RVec.pushBack
  simp only
  rw [Multiset.range_succ, Multiset.map_cons, if_pos rfl]
  congr 1
  refine Multiset.map_congr rfl ?_
  intro t ht
  have : t ≠ a.size := by
    have := Multiset.mem_range.mp ht
    omega
  rw [if_neg this]

/-- `j` is a child index of `i` in the implicit binary tree. -/
def ChildOf (i j : ℕ) : Prop := j = 2 * i + 1 ∨ j = 2 * i + 2

/-- The heap invariant of the Rust `BinaryHeap<OrderedValidator>`: with the
reversed `Ord`, the root of every subtree carries the minimal score. -/
def IsHeap (a : RVec CommitteeCand) : Prop :=
  ∀ i j, j < a.size → ChildOf i j → (a.get i).score ≤ (a.get j).score

/-- `sift_up` (Rust `BinaryHeap::sift_up` with `start = 0`): move the element
at `p` towards the root while it is `Ord`-greater (smaller score) than its
parent.  `fuel ≥ p` suffices, and the caller passes `fuel = p`. -/
def siftUpAux : ℕ → RVec CommitteeCand → ℕ → RVec CommitteeCand
  | _, a, 0 => a
  | 0, a, _ + 1 => a
  | fuel + 1, a, p + 1 =>
      if (a.get (p + 1)).score < (a.get (p / 2)).score then
        siftUpAux fuel (a.swap (p + 1) (p / 2)) (p / 2)
      else a

def siftUp (a : RVec CommitteeCand) (p : ℕ) : RVec CommitteeCand := siftUpAux p a p

/-- `BinaryHeap::push`: append, then sift the new last element up. -/
def heapPush (a : RVec CommitteeCand) (x : CommitteeCand) : RVec CommitteeCand :=
  siftUp (a.pushBack x) a.size

/-- The hole-walking loop of `sift_down_to_bottom`: while the hole at `pos`
has two children, promote the `Ord`-greater child (the one whose score is
smaller, the right child on ties) and move the hole there; with exactly one
child, move there; return the array and the final hole position.
`fuel = size` suffices. -/
def sdtbAux : ℕ → RVec CommitteeCand → ℕ → RVec CommitteeCand × ℕ
  | 0, a, pos => (a, pos)
  | fuel + 1, a, pos =>
      if 2 * pos + 2 < a.size then
        if (a.get (2 * pos + 2)).score ≤ (a.get (2 * pos + 1)).score then
          sdtbAux fuel (a.swap pos (2 * pos + 2)) (2 * pos + 2)
        else
          sdtbAux fuel (a.swap pos (2 * pos + 1)) (2 * pos + 1)
      else if 2 * pos + 2 = a.size then
        (a.swap pos (2 * pos + 1), 2 * pos + 1)
      else (a, pos)

/-- `BinaryHeap::sift_down_to_bottom`: walk the hole to the bottom, then sift
the displaced element back up. -/
def siftDownToBottom (a : RVec CommitteeCand) (pos : ℕ) : RVec CommitteeCand :=
  siftUp (sdtbAux a.size a pos).1 (sdtbAux a.size a pos).2

/-- `BinaryHeap::pop`: return `data[0]`; move the last element to the root
and restore the heap with `sift_down_to_bottom`. -/
def heapPop (a : RVec CommitteeCand) :
    Option (CommitteeCand × RVec CommitteeCand) :=
  if a.size = 0 then none
  else if a.size = 1 then some (a.get 0, ⟨0, a.get⟩)
  else
    some (a.get 0,
      siftDownToBottom
        ⟨a.size - 1, fun t => if t = 0 then a.get (a.size - 1) else a.get t⟩ 0)

/-- One iteration of the `select_committee` loop: push the candidate, pop the
minimum when the heap exceeds the committee size. -/
def selectStep (k : ℕ) (h : RVec CommitteeCand) (v : CommitteeCand) :
    RVec CommitteeCand :=
  if k < (heapPush h v).size then
    match heapPop (heapPush h v) with
    | some (_, rest) => rest
    | none => heapPush h v
  else heapPush h v

/-- `ProofOfEmotionEngine::select_committee`: the whole eligible set when it
fits, otherwise the survivors of the bounded min-heap, in the heap's
underlying vector order (`into_iter`). -/
def select_committee (eligible : List CommitteeCand) (committee_size : ℕ) :
    List CommitteeCand :=
  if eligible.length ≤ committee_size then eligible
  else (eligible.foldl (selectStep committee_size) ⟨0, fun _ => default⟩).toList

theorem size_siftUpAux : ∀ (fuel : ℕ) (a : RVec CommitteeCand) (p : ℕ),
    (siftUpAux fuel a p).size = a.size := by
  intro fuel
  induction fuel with
  | zero => intro a p; cases p <;> rfl
  | succ n ih =>
      intro a p
      cases p with
      | zero => rfl
      | succ q =>
          unfold siftUpAux
          by_cases hc : (a.get (q + 1)).score < (a.get (q / 2)).score
          · rw [if_pos hc, ih]
            rfl
          · rw [if_neg hc]

theorem mset_siftUpAux : ∀ (fuel : ℕ) (a : RVec CommitteeCand) (p : ℕ),
    p < a.size → (siftUpAux fuel a p).mset = a.mset := by
  intro fuel
  induction fuel with
  | zero => intro a p _; cases p <;> rfl
  | succ n ih =>
      intro a p hp
      cases p with
      | zero => rfl
      | succ q =>
          unfold siftUpAux
          by_cases hc : (a.get (q + 1)).score < (a.get (q / 2)).score
          · rw [if_pos hc, ih _ _ (by simpa using Nat.lt_of_le_of_lt (by omega) hp),
              RVec.mset_swap a (q + 1) (q / 2) hp (by omega)]
          · rw [if_neg hc]

theorem size_sdtbAux : ∀ (fuel : ℕ) (a : RVec CommitteeCand) (pos : ℕ),
    ((sdtbAux fuel a pos).1).size = a.size := by
  intro fuel
  induction fuel with
  | zero => intro a pos; rfl
  | succ n ih =>
      intro a pos
      unfold sdtbAux
      by_cases hc2 : 2 * pos + 2 < a.size
      · rw [if_pos hc2]
        by_cases hle : (a.get (2 * pos + 2)).score ≤ (a.get (2 * pos + 1)).score
        · rw [if_pos hle, ih]; rfl
        · rw [if_neg hle, ih]; rfl
      · rw [if_neg hc2]
        by_cases heq : 2 * pos + 2 = a.size
        · rw [if_pos heq]
          rfl
        · rw [if_neg heq]

theorem snd_lt_sdtbAux : ∀ (fuel : ℕ) (a : RVec CommitteeCand) (pos : ℕ),
    pos < a.size → (sdtbAux fuel a pos).2 < a.size := by
  intro fuel
  induction fuel with
  | zero => intro a pos h; exact h
  | succ n ih =>
      intro a pos hpos
      unfold sdtbAux
      by_cases hc2 : 2 * pos + 2 < a.size
      · rw [if_pos hc2]
        by_cases hle : (a.get (2 * pos + 2)).score ≤ (a.get (2 * pos + 1)).score
        · rw [if_pos hle]
          exact ih _ _ (by rw [RVec.size_swap]; omega)
        · rw [if_neg hle]
          exact ih _ _ (by rw [RVec.size_swap]; omega)
      · rw [if_neg hc2]
        by_cases heq : 2 * pos + 2 = a.size
        · rw [if_pos heq]
          simp only [RVec.size_swap]
          omega
        · rw [if_neg heq]
          exact hpos

theorem mset_sdtbAux : ∀ (fuel : ℕ) (a : RVec CommitteeCand) (pos : ℕ),
    pos < a.size → ((sdtbAux fuel a pos).1).mset = a.mset := by
  intro fuel
  induction fuel with
  | zero => intro a pos _; rfl
  | succ n ih =>
      intro a pos hpos
      unfold sdtbAux
      by_cases hc2 : 2 * pos + 2 < a.size
      · rw [if_pos hc2]
        by_cases hle : (a.get (2 * pos + 2)).score ≤ (a.get (2 * pos + 1)).score
        · rw [if_pos hle, ih _ _ (by rw [RVec.size_swap]; omega),
            RVec.mset_swap a pos (2 * pos + 2) hpos hc2]
        · rw [if_neg hle, ih _ _ (by rw [RVec.size_swap]; omega),
            RVec.mset_swap a pos (2 * pos + 1) hpos (by omega)]
      · rw [if_neg hc2]
        by_cases heq : 2 * pos + 2 = a.size
        · rw [if_pos heq]
          exact RVec.mset_swap a pos (2 * pos + 1) hpos (by omega)
        · rw [if_neg heq]

theorem leaf_sdtbAux : ∀ (fuel : ℕ) (a : RVec CommitteeCand) (pos : ℕ),
    a.size ≤ fuel + pos + 1 → a.size ≤ 2 * (sdtbAux fuel a pos).2 + 1 := by
  intro fuel
  induction fuel with
  | zero => intro a pos h; simp only [sdtbAux]; omega
  | succ n ih =>
      intro a pos hfuel
      unfold sdtbAux
      by_cases hc2 : 2 * pos + 2 < a.size
      · rw [if_pos hc2]
        by_cases hle : (a.get (2 * pos + 2)).score ≤ (a.get (2 * pos + 1)).score
        · rw [if_pos hle]
          have := ih (a.swap pos (2 * pos + 2)) (2 * pos + 2)
            (by rw [RVec.size_swap]; omega)
          rw [RVec.size_swap] at this
          exact this
        · rw [if_neg hle]
          have := ih (a.swap pos (2 * pos + 1)) (2 * pos + 1)
            (by rw [RVec.size_swap]; omega)
          rw [RVec.size_swap] at this
          exact this
      · rw [if_neg hc2]
        by_cases heq : 2 * pos + 2 = a.size
        · rw [if_pos heq]
          simp only
          omega
        · rw [if_neg heq]
          omega

theorem isHeap_root_min (a : RVec CommitteeCand) (h : IsHeap a) :
    ∀ t, t < a.size → (a.get 0).score ≤ (a.get t).score := by
  intro t
  induction t using Nat.strong_induction_on with
  | _ t ih =>
      intro ht
      match t with
      | 0 => exact Nat.le_refl _
      | s + 1 =>
          have hchild : ChildOf (s / 2) (s + 1) := by
            unfold ChildOf
            omega
          have hplt : s / 2 < s + 1 := by omega
          exact Nat.le_trans (ih (s / 2) hplt (Nat.lt_trans hplt ht))
            (h (s / 2) (s + 1) ht hchild)

theorem root_min_mset (a : RVec CommitteeCand) (h : IsHeap a) :
    ∀ x ∈ a.mset, (a.get 0).score ≤ x.score := by
  intro x hx
  rcases Multiset.mem_map.mp hx with ⟨t, ht, rfl⟩
  exact isHeap_root_min a h t (Multiset.mem_range.mp ht)

theorem mset_replace_root (a : RVec α) (h2 : 2 ≤ a.size) :
    a.mset = a.get 0 ::ₘ
      (RVec.mk (a.size - 1)
        (fun t => if t = 0 then a.get (a.size - 1) else a.get t)).mset := by
  unfold RVec.mset
  simp only
  have hm : 1 ≤ a.size - 1 := by omega
  have h0m : (0 : ℕ) ∈ Multiset.range (a.size - 1) := Multiset.mem_range.mpr (by omega)
  have hsplit : Multiset.range (a.size - 1) =
      0 ::ₘ (Multiset.range (a.size - 1)).erase 0 := (Multiset.cons_erase h0m).symm
  have herase : ∀ x ∈ (Multiset.range (a.size - 1)).erase 0, x ≠ 0 := by
    intro x hx
    exact ((Multiset.nodup_range (a.size - 1)).mem_erase_iff.mp hx).1
  have hLHS : Multiset.map a.get (Multiset.range a.size) =
      a.get (a.size - 1) ::ₘ a.get 0 ::ₘ
        Multiset.map a.get ((Multiset.range (a.size - 1)).erase 0) := by
    have hsz : a.size = (a.size - 1) + 1 := by omega
    calc Multiset.map a.get (Multiset.range a.size)
        = Multiset.map a.get (Multiset.range ((a.size - 1) + 1)) := by rw [← hsz]
      _ = a.get (a.size - 1) ::ₘ Multiset.map a.get (Multiset.range (a.size - 1)) := by
          rw [Multiset.range_succ, Multiset.map_cons]
      _ = a.get (a.size - 1) ::ₘ
            Multiset.map a.get (0 ::ₘ (Multiset.range (a.size - 1)).erase 0) := by
          rw [← hsplit]
      _ = a.get (a.size - 1) ::ₘ a.get 0 ::ₘ
            Multiset.map a.get ((Multiset.range (a.size - 1)).erase 0) := by
          rw [Multiset.map_cons]
  have hRHS : Multiset.map
        (fun t => if t = 0 then a.get (a.size - 1) else a.get t)
        (Multiset.range (a.size - 1)) =
      a.get (a.size - 1) ::ₘ
        Multiset.map a.get ((Multiset.range (a.size - 1)).erase 0) := by
    rw [hsplit, Multiset.map_cons, if_pos rfl]
    congr 1
    refine Multiset.map_congr rfl ?_
    intro x hx
    rw [if_neg (herase x hx)]
  rw [hLHS, hRHS, Multiset.cons_swap]

theorem size_siftDownToBottom (a : RVec CommitteeCand) (pos : ℕ) :
    (siftDownToBottom a pos).size = a.size := by
  unfold siftDownToBottom siftUp
  rw [size_siftUpAux, size_sdtbAux]

theorem mset_siftDownToBottom (a : RVec CommitteeCand) (pos : ℕ)
    (hpos : pos < a.size) :
    (siftDownToBottom a pos).mset = a.mset := by
  unfold siftDownToBottom siftUp
  rw [mset_siftUpAux _ _ _ (by
      rw [size_sdtbAux]
      exact snd_lt_sdtbAux a.size a pos hpos),
    mset_sdtbAux _ _ _ hpos]

theorem heapPop_spec (a : RVec CommitteeCand) (hne : a.size ≠ 0) :
    ∃ rest, heapPop a = some (a.get 0, rest) ∧ rest.size = a.size - 1 ∧
      a.mset = a.get 0 ::ₘ rest.mset := by
  unfold heapPop
  rw [if_neg hne]
  by_cases h1 : a.size = 1
  · rw [if_pos h1]
    refine ⟨⟨0, a.get⟩, rfl, by show (0 : ℕ) = a.size - 1; omega, ?_⟩
    unfold RVec.mset
    simp only [h1]
    rw [Multiset.range_succ, Multiset.map_cons]
  · rw [if_neg h1]
    have h2 : 2 ≤ a.size := by omega
    refine ⟨_, rfl, ?_, ?_⟩
    · rw [size_siftDownToBottom]
    · rw [mset_siftDownToBottom _ _ (by simp only; omega)]
      exact mset_replace_root a h2

theorem RVec.get_swap_left (a : RVec α) (i j : ℕ) : (a.swap i j).get i = a.get j := by
  simp [RVec.swap]

theorem RVec.get_swap_right (a : RVec α) (i j : ℕ) : (a.swap i j).get j = a.get i := by
  unfold RVec.swap
  by_cases h : j = i <;> simp [h]

theorem RVec.get_swap_other (a : RVec α) (i j t : ℕ) (h1 : t ≠ i) (h2 : t ≠ j) :
    (a.swap i j).get t = a.get t := by
  simp [RVec.swap, h1, h2]

theorem RVec.get_pushBack_other (a : RVec α) (x : α) (t : ℕ) (h : t ≠ a.size) :
    (a.pushBack x).get t = a.get t := by
  simp [RVec.pushBack, h]

theorem isHeap_siftUpAux : ∀ (fuel : ℕ) (a : RVec CommitteeCand) (p : ℕ),
    p ≤ fuel → p < a.size →
    (∀ i j, j < a.size → ChildOf i j → j ≠ p → (a.get i).score ≤ (a.get j).score) →
    (0 < p → ∀ j, j < a.size → ChildOf p j →
      (a.get ((p - 1) / 2)).score ≤ (a.get j).score) →
    IsHeap (siftUpAux fuel a p) := by
  intro fuel
  induction fuel with
  | zero =>
      intro a p hpf _ h1 _
      have hp0 : p = 0 := by omega
      subst hp0
      intro i j hj hch
      refine h1 i j hj hch ?_
      rcases hch with h | h <;> omega
  | succ n ih =>
      intro a p hpf hps h1 h2
      cases p with
      | zero =>
          intro i j hj hch
          refine h1 i j hj hch ?_
          rcases hch with h | h <;> omega
      | succ q =>
          unfold siftUpAux
          by_cases hc : (a.get (q + 1)).score < (a.get (q / 2)).score
          · rw [if_pos hc]
            refine ih (a.swap (q + 1) (q / 2)) (q / 2) (by omega)
              (by rw [RVec.size_swap]; omega) ?_ ?_
            · -- edges except into the new hole position q / 2
              intro i j hj hch hjQ
              rw [RVec.size_swap] at hj
              have hQP : q / 2 < q + 1 := by omega
              by_cases hjP : j = q + 1
              · subst hjP
                have hiQ : i = q / 2 := by rcases hch with h | h <;> omega
                subst hiQ
                rw [RVec.get_swap_right, RVec.get_swap_left]
                exact Nat.le_of_lt hc
              · by_cases hiP : i = q + 1
                · subst hiP
                  rw [RVec.get_swap_left,
                    RVec.get_swap_other a _ _ j hjP hjQ]
                  exact h2 (by omega) j hj hch
                · by_cases hiQ : i = q / 2
                  · subst hiQ
                    rw [RVec.get_swap_right,
                      RVec.get_swap_other a _ _ j hjP hjQ]
                    exact Nat.le_trans (Nat.le_of_lt hc) (h1 (q / 2) j hj hch hjP)
                  · rw [RVec.get_swap_other a _ _ i hiP hiQ,
                      RVec.get_swap_other a _ _ j hjP hjQ]
                    exact h1 i j hj hch hjP
            · -- grandparent bound for the new hole position
              intro hQ0 j hj hch
              rw [RVec.size_swap] at hj
              have hrP : (q / 2 - 1) / 2 ≠ q + 1 := by omega
              have hrQ : (q / 2 - 1) / 2 ≠ q / 2 := by omega
              have hQsz : q / 2 < a.size := by omega
              have hQnP : q / 2 ≠ q + 1 := by omega
              have hchrQ : ChildOf ((q / 2 - 1) / 2) (q / 2) := by
                unfold ChildOf
                omega
              rw [RVec.get_swap_other a _ _ _ hrP hrQ]
              by_cases hjP : j = q + 1
              · subst hjP
                rw [RVec.get_swap_left]
                exact h1 _ (q / 2) hQsz hchrQ hQnP
              · have hjQ : j ≠ q / 2 := by rcases hch with h | h <;> omega
                rw [RVec.get_swap_other a _ _ j hjP hjQ]
                exact Nat.le_trans (h1 _ (q / 2) hQsz hchrQ hQnP)
                  (h1 (q / 2) j hj hch hjP)
          · rw [if_neg hc]
            intro i j hj hch
            by_cases hjp : j = q + 1
            · subst hjp
              have hiQ : i = q / 2 := by rcases hch with h | h <;> omega
              subst hiQ
              exact Nat.le_of_not_lt hc
            · exact h1 i j hj hch hjp

theorem isHeap_heapPush (a : RVec CommitteeCand) (x : CommitteeCand)
    (h : IsHeap a) : IsHeap (heapPush a x) := by
  unfold heapPush siftUp
  refine isHeap_siftUpAux a.size (a.pushBack x) a.size (Nat.le_refl _)
    (by show a.size < a.size + 1; omega) ?_ ?_
  · intro i j hj hch hjne
    have hjs : j < a.size := by
      have : j < a.size + 1 := hj
      omega
    have his : i ≠ a.size := by rcases hch with h' | h' <;> omega
    rw [RVec.get_pushBack_other a x i his, RVec.get_pushBack_other a x j hjne]
    exact h i j hjs hch
  · intro _ j hj hch
    exfalso
    have : j < a.size + 1 := hj
    rcases hch with h' | h' <;> omega

theorem sdtbAux_down : ∀ (fuel : ℕ) (a : RVec CommitteeCand) (pos : ℕ),
    a.size ≤ fuel + pos + 1 → pos < a.size →
    (∀ i j, j < a.size → ChildOf i j → i ≠ pos → j ≠ pos →
      (a.get i).score ≤ (a.get j).score) →
    (0 < pos → ∀ j, j < a.size → ChildOf pos j →
      (a.get ((pos - 1) / 2)).score ≤ (a.get j).score) →
    ∀ i j, j < a.size → ChildOf i j →
      i ≠ (sdtbAux fuel a pos).2 → j ≠ (sdtbAux fuel a pos).2 →
      ((sdtbAux fuel a pos).1.get i).score ≤ ((sdtbAux fuel a pos).1.get j).score := by
  intro fuel
  induction fuel with
  | zero =>
      intro a pos _ _ hD1 _ i j hj hch hip hjp
      exact hD1 i j hj hch hip hjp
  | succ n ih =>
      intro a pos hfuel hpos hD1 hD2
      unfold sdtbAux
      by_cases hc2 : 2 * pos + 2 < a.size
      · rw [if_pos hc2]
        by_cases hle : (a.get (2 * pos + 2)).score ≤ (a.get (2 * pos + 1)).score
        · rw [if_pos hle]
          have hres := ih (a.swap pos (2 * pos + 2)) (2 * pos + 2)
            (by rw [RVec.size_swap]; omega) (by rw [RVec.size_swap]; omega)
            ?_ ?_
          · intro i j hj hch hip hjp
            exact hres i j (by rw [RVec.size_swap]; exact hj) hch hip hjp
          · -- D1 after promoting the right child
            intro i j hj hch hiC hjC
            rw [RVec.size_swap] at hj
            by_cases hjpos : j = pos
            · rw [hjpos]
              have hpos0 : 0 < pos := by rcases hch with h | h <;> omega
              have hipar : i = (pos - 1) / 2 := by rcases hch with h | h <;> omega
              have hipos : i ≠ pos := by omega
              rw [RVec.get_swap_other a _ _ i hipos hiC, RVec.get_swap_left]
              refine hipar ▸ hD2 hpos0 (2 * pos + 2) hc2 ?_
              unfold ChildOf
              omega
            · by_cases hipos : i = pos
              · have hjC' : j = 2 * pos + 1 := by
                  rcases hch with h | h <;> omega
                rw [hipos, hjC']
                rw [RVec.get_swap_left,
                  RVec.get_swap_other a _ _ _ (by omega) (by omega)]
                exact hle
              · rw [RVec.get_swap_other a _ _ i hipos hiC,
                  RVec.get_swap_other a _ _ j hjpos hjC]
                exact hD1 i j hj hch hipos hjpos
          · -- D2 after promoting the right child
            intro _ j hj hch
            rw [RVec.size_swap] at hj
            have hpar : (2 * pos + 2 - 1) / 2 = pos := by omega
            have hjne1 : j ≠ pos := by rcases hch with h | h <;> omega
            have hjne2 : j ≠ 2 * pos + 2 := by rcases hch with h | h <;> omega
            rw [hpar, RVec.get_swap_left, RVec.get_swap_other a _ _ j hjne1 hjne2]
            exact hD1 (2 * pos + 2) j hj hch (by omega) hjne1
        · rw [if_neg hle]
          have hres := ih (a.swap pos (2 * pos + 1)) (2 * pos + 1)
            (by rw [RVec.size_swap]; omega) (by rw [RVec.size_swap]; omega)
            ?_ ?_
          · intro i j hj hch hip hjp
            exact hres i j (by rw [RVec.size_swap]; exact hj) hch hip hjp
          · -- D1 after promoting the left child
            intro i j hj hch hiC hjC
            rw [RVec.size_swap] at hj
            by_cases hjpos : j = pos
            · rw [hjpos]
              have hpos0 : 0 < pos := by rcases hch with h | h <;> omega
              have hipar : i = (pos - 1) / 2 := by rcases hch with h | h <;> omega
              have hipos : i ≠ pos := by omega
              rw [RVec.get_swap_other a _ _ i hipos hiC, RVec.get_swap_left]
              refine hipar ▸ hD2 hpos0 (2 * pos + 1) (by omega) ?_
              unfold ChildOf
              omega
            · by_cases hipos : i = pos
              · have hjC' : j = 2 * pos + 2 := by
                  rcases hch with h | h <;> omega
                rw [hipos, hjC']
                rw [RVec.get_swap_left,
                  RVec.get_swap_other a _ _ _ (by omega) (by omega)]
                omega
              · rw [RVec.get_swap_other a _ _ i hipos hiC,
                  RVec.get_swap_other a _ _ j hjpos hjC]
                exact hD1 i j hj hch hipos hjpos
          · -- D2 after promoting the left child
            intro _ j hj hch
            rw [RVec.size_swap] at hj
            have hpar : (2 * pos + 1 - 1) / 2 = pos := by omega
            have hjne1 : j ≠ pos := by rcases hch with h | h <;> omega
            have hjne2 : j ≠ 2 * pos + 1 := by rcases hch with h | h <;> omega
            rw [hpar, RVec.get_swap_left, RVec.get_swap_other a _ _ j hjne1 hjne2]
            exact hD1 (2 * pos + 1) j hj hch (by omega) hjne1
      · rw [if_neg hc2]
        by_cases heq : 2 * pos + 2 = a.size
        · rw [if_pos heq]
          intro i j hj hch hiC hjC
          simp only at hiC hjC ⊢
          by_cases hjpos : j = pos
          · rw [hjpos]
            have hpos0 : 0 < pos := by rcases hch with h | h <;> omega
            have hipar : i = (pos - 1) / 2 := by rcases hch with h | h <;> omega
            have hipos : i ≠ pos := by omega
            rw [RVec.get_swap_other a _ _ i hipos hiC, RVec.get_swap_left]
            refine hipar ▸ hD2 hpos0 (2 * pos + 1) (by omega) ?_
            unfold ChildOf
            omega
          · by_cases hipos : i = pos
            · exfalso
              rw [hipos] at hch
              rcases hch with h | h <;> omega
            · rw [RVec.get_swap_other a _ _ i hipos hiC,
                RVec.get_swap_other a _ _ j hjpos hjC]
              exact hD1 i j hj hch hipos hjpos
        · rw [if_neg heq]
          intro i j hj hch hiC hjC
          exact hD1 i j hj hch hiC hjC

theorem isHeap_siftDownToBottom_of (a : RVec CommitteeCand) (hpos : 0 < a.size)
    (hD1 : ∀ i j, j < a.size → ChildOf i j → i ≠ 0 → j ≠ 0 →
      (a.get i).score ≤ (a.get j).score) :
    IsHeap (siftDownToBottom a 0) := by
  unfold siftDownToBottom siftUp
  have hleaf := leaf_sdtbAux a.size a 0 (by omega)
  have hlt := snd_lt_sdtbAux a.size a 0 hpos
  have hsz := size_sdtbAux a.size a 0
  have hD1' := sdtbAux_down a.size a 0 (by omega) hpos hD1
    (fun h0 => absurd h0 (Nat.lt_irrefl 0))
  refine isHeap_siftUpAux _ _ _ (Nat.le_refl _) (by rw [hsz]; exact hlt) ?_ ?_
  · intro i j hj hch hjp
    rw [hsz] at hj
    by_cases hip : i = (sdtbAux a.size a 0).2
    · exfalso
      subst hip
      rcases hch with h | h <;> omega
    · exact hD1' i j hj hch hip hjp
  · intro _ j hj hch
    exfalso
    rw [hsz] at hj
    rcases hch with h | h <;> omega

theorem isHeap_heapPop (a : RVec CommitteeCand) (h : IsHeap a) :
    ∀ x rest, heapPop a = some (x, rest) → IsHeap rest := by
  intro x rest hpop
  unfold heapPop at hpop
  by_cases h0 : a.size = 0
  · rw [if_pos h0] at hpop
    exact absurd hpop (by simp)
  · rw [if_neg h0] at hpop
    by_cases h1 : a.size = 1
    · rw [if_pos h1] at hpop
      simp only [Option.some.injEq, Prod.mk.injEq] at hpop
      obtain ⟨_, hrest⟩ := hpop
      rw [← hrest]
      intro i j hj _
      exact absurd hj (by show ¬ j < 0; omega)
    · rw [if_neg h1] at hpop
      simp only [Option.some.injEq, Prod.mk.injEq] at hpop
      obtain ⟨_, hrest⟩ := hpop
      rw [← hrest]
      refine isHeap_siftDownToBottom_of _ (by show 0 < a.size - 1; omega) ?_
      intro i j hj hch hi0 hj0
      simp only [if_neg hi0, if_neg hj0]
      have hj' : j < a.size - 1 := hj
      exact h i j (by omega) hch

theorem heapPush_size (a : RVec CommitteeCand) (x : CommitteeCand) :
    (heapPush a x).size = a.size + 1 := by
  unfold heapPush siftUp
  rw [size_siftUpAux]
  rfl

theorem heapPush_mset (a : RVec CommitteeCand) (x : CommitteeCand) :
    (heapPush a x).mset = x ::ₘ a.mset := by
  unfold heapPush siftUp
  rw [mset_siftUpAux _ _ _ (by show a.size < a.size + 1; omega),
    RVec.mset_pushBack]

/-- Every member of `H` scores at least every member of `R`. -/
def ScoreDom (H R : Multiset CommitteeCand) : Prop :=
  ∀ x ∈ H, ∀ y ∈ R, y.score ≤ x.score

theorem selectStep_spec (k : ℕ) (h : RVec CommitteeCand) (v : CommitteeCand)
    (R : Multiset CommitteeCand) (hheap : IsHeap h) (hdom : ScoreDom h.mset R)
    (hsize : h.size ≤ k) (hRz : R = 0 ∨ h.size = k) :
    IsHeap (selectStep k h v) ∧ (selectStep k h v).size ≤ k ∧
    ∃ R2, (selectStep k h v).mset + R2 = (v ::ₘ h.mset) + R ∧
      ScoreDom (selectStep k h v).mset R2 ∧
      (R2 = 0 ∨ (selectStep k h v).size = k) := by
  have hh' : IsHeap (heapPush h v) := isHeap_heapPush h v hheap
  have hsz' : (heapPush h v).size = h.size + 1 := heapPush_size h v
  have hms' : (heapPush h v).mset = v ::ₘ h.mset := heapPush_mset h v
  unfold selectStep
  by_cases hk : k < (heapPush h v).size
  · rw [if_pos hk]
    obtain ⟨rest, hpop, hrsz, hrms⟩ := heapPop_spec (heapPush h v) (by omega)
    rw [hpop]
    simp only
    have hkeq : h.size = k := by omega
    have hroot := root_min_mset (heapPush h v) hh'
    refine ⟨isHeap_heapPop _ hh' _ _ hpop, by omega,
      (heapPush h v).get 0 ::ₘ R, ?_, ?_, Or.inr (by omega)⟩
    · rw [← hms', hrms]
      rw [← Multiset.singleton_add, ← Multiset.singleton_add]
      abel
    · intro x hx y hy
      have hxh' : x ∈ (heapPush h v).mset := by
        rw [hrms]
        exact Multiset.mem_cons_of_mem hx
      rcases Multiset.mem_cons.mp hy with rfl | hyR
      · exact hroot x hxh'
      · by_cases hxh : x ∈ h.mset
        · exact hdom x hxh y hyR
        · have hxv : x = v := by
            have hx2 := hms' ▸ hxh'
            rcases Multiset.mem_cons.mp hx2 with h' | h'
            · exact h'
            · exact absurd h' hxh
          by_cases hrh : (heapPush h v).get 0 ∈ h.mset
          · have hy1 : y.score ≤ ((heapPush h v).get 0).score := hdom _ hrh y hyR
            have hy2 : ((heapPush h v).get 0).score ≤ v.score := by
              refine hroot v ?_
              rw [hms']
              exact Multiset.mem_cons_self v h.mset
            rw [hxv]
            omega
          · exfalso
            have hrv : (heapPush h v).get 0 = v := by
              have hr' : (heapPush h v).get 0 ∈ (heapPush h v).mset := by
                rw [hrms]
                exact Multiset.mem_cons_self _ rest.mset
              rw [hms'] at hr'
              rcases Multiset.mem_cons.mp hr' with h' | h'
              · exact h'
              · exact absurd h' hrh
            have hrm : rest.mset = h.mset := by
              have hcc : v ::ₘ rest.mset = v ::ₘ h.mset := by
                rw [← hms', hrms, hrv]
              have := congrArg (fun s => Multiset.erase s v) hcc
              simpa [Multiset.erase_cons_head] using this
            rw [hrm] at hx
            exact hxh hx
  · rw [if_neg hk]
    have hR0 : R = 0 := by
      rcases hRz with h' | h'
      · exact h'
      · omega
    refine ⟨hh', by omega, R, by rw [hms'], ?_, Or.inl hR0⟩
    intro x hx y hy
    rw [hR0] at hy
    exact absurd hy (Multiset.not_mem_zero y)

theorem foldl_selectStep_spec (k : ℕ) :
    ∀ (l : List CommitteeCand) (h : RVec CommitteeCand)
      (R : Multiset CommitteeCand),
      IsHeap h → ScoreDom h.mset R → h.size ≤ k → (R = 0 ∨ h.size = k) →
      ∃ R2, IsHeap (l.foldl (selectStep k) h) ∧
        (l.foldl (selectStep k) h).size ≤ k ∧
        (l.foldl (selectStep k) h).mset + R2 = (↑l + h.mset) + R ∧
        ScoreDom (l.foldl (selectStep k) h).mset R2 ∧
        (R2 = 0 ∨ (l.foldl (selectStep k) h).size = k) := by
  intro l
  induction l with
  | nil =>
      intro h R hh hd hs hz
      refine ⟨R, hh, hs, ?_, hd, hz⟩
      simp
  | cons v rest ih =>
      intro h R hh hd hs hz
      obtain ⟨hh1, hs1, R1, hcons1, hd1, hz1⟩ := selectStep_spec k h v R hh hd hs hz
      obtain ⟨R2, hh2, hs2, hcons2, hd2, hz2⟩ :=
        ih (selectStep k h v) R1 hh1 hd1 hs1 hz1
      refine ⟨R2, ?_, ?_, ?_, ?_, ?_⟩
      · rw [List.foldl_cons]
        exact hh2
      · rw [List.foldl_cons]
        exact hs2
      · rw [List.foldl_cons, hcons2, add_assoc, hcons1]
        rw [show ((v :: rest : List CommitteeCand) : Multiset CommitteeCand) =
          v ::ₘ (↑rest : Multiset CommitteeCand) from rfl]
        rw [← Multiset.singleton_add, ← Multiset.singleton_add]
        abel
      · rw [List.foldl_cons]
        exact hd2
      · rw [List.foldl_cons]
        exact hz2

/-- C3 (amended): if the eligible set has at most `committee_size` members
the committee is the whole eligible set; otherwise the committee has exactly
`committee_size` members drawn from the eligible set and realizes the
`committee_size` highest integer scores — every selected validator's integer
score is at least every unselected validator's.  Ties between equal integer
scores at the selection boundary are broken by the heap's internal,
insertion-order-dependent structure, not by validator id. -/
theorem C3_select_committee (eligible : List CommitteeCand) (k : ℕ) :
    (eligible.length ≤ k → select_committee eligible k = eligible) ∧
    (k < eligible.length →
      (select_committee eligible k).length = k ∧
      ∃ R, (↑(select_committee eligible k) : Multiset CommitteeCand) + R =
          (↑eligible : Multiset CommitteeCand) ∧
        ∀ x ∈ select_committee eligible k, ∀ y ∈ R, y.score ≤ x.score) := by
  constructor
  · intro hle
    unfold select_committee
    rw [if_pos hle]
  · intro hgt
    unfold select_committee
    rw [if_neg (by omega)]
    have hempty : (RVec.mk 0 (fun _ => (default : CommitteeCand))).mset = 0 := by
      unfold RVec.mset
      simp
    obtain ⟨R2, hh, hs, hcons, hd, hz⟩ :=
      foldl_selectStep_spec k eligible ⟨0, fun _ => default⟩ 0
        (by intro i j hj _; exact absurd hj (by show ¬ j < 0; omega))
        (by intro x hx _ hy; exact absurd hy (Multiset.not_mem_zero _))
        (by show (0 : ℕ) ≤ k; omega) (Or.inl rfl)
    rw [hempty, add_zero, add_zero] at hcons
    have hcard : (eligible.foldl (selectStep k) ⟨0, fun _ => default⟩).size +
        Multiset.card R2 = eligible.length := by
      have hc := congrArg Multiset.card hcons
      rw [Multiset.card_add, RVec.card_mset, Multiset.coe_card] at hc
      exact hc
    have hR2ne : R2 ≠ 0 := by
      intro h0
      rw [h0] at hcard
      simp at hcard
      omega
    have hsz : (eligible.foldl (selectStep k) ⟨0, fun _ => default⟩).size = k := by
      rcases hz with h' | h'
      · exact absurd h' hR2ne
      · exact h'
    refine ⟨?_, R2, ?_, ?_⟩
    · rw [RVec.length_toList, hsz]
    · rw [RVec.mset_toList]
      exact hcons
    · intro x hx y hy
      refine hd x ?_ y hy
      rw [← RVec.mset_toList]
      exact hx

/-- Lexicographic order on character lists by code point. -/
def charListLe : List Char → List Char → Bool
  | [], _ => true
  | _ :: _, [] => false
  | a :: asr, b :: bs =>
      if a.toNat < b.toNat then true
      else if b.toNat < a.toNat then false
      else charListLe asr bs

/-- Lexicographic string order (`String` order in Rust). -/
def strLexLe (a b : String) : Bool := charListLe a.data b.data

/-- The order the CLAIM describes: descending integer score, ties broken
by validator id ascending lexicographically. -/
def claimLe (a b : CommitteeCand) : Bool :=
  decide (b.score < a.score) ||
    (decide (a.score = b.score) && strLexLe a.vid b.vid)

/-- The committee the CLAIM describes (written from the claim's words, for
comparison with `select_committee`, which is translated from the source):
sort by descending score with lexicographic id tiebreak and take the first
`committee_size`. -/
def claim_committee (eligible : List CommitteeCand) (committee_size : ℕ) :
    List CommitteeCand :=
  if eligible.length ≤ committee_size then eligible
  else (insertionSort claimLe eligible).take committee_size

/-- Counterexample to C3's tiebreak clause: with eligible set
`[⟨10,"a"⟩, ⟨10,"b"⟩, ⟨20,"c"⟩]` and committee size 2, the claim's
lex-on-id tiebreak keeps `⟨10,"a"⟩`, but the code's heap keeps
`⟨10,"b"⟩` and drops `⟨10,"a"⟩`: the heap breaks score ties by its
insertion-order-dependent internal structure, not by validator id. -/
theorem C3_counterexample :
    claim_committee [⟨10, "a"⟩, ⟨10, "b"⟩, ⟨20, "c"⟩] 2 =
      [⟨20, "c"⟩, ⟨10, "a"⟩] ∧
    select_committee [⟨10, "a"⟩, ⟨10, "b"⟩, ⟨20, "c"⟩] 2 =
      [⟨10, "b"⟩, ⟨20, "c"⟩] ∧
    (⟨10, "a"⟩ : CommitteeCand) ∈
      claim_committee [⟨10, "a"⟩, ⟨10, "b"⟩, ⟨20, "c"⟩] 2 ∧
    (⟨10, "a"⟩ : CommitteeCand) ∉
      select_committee [⟨10, "a"⟩, ⟨10, "b"⟩, ⟨20, "c"⟩] 2 := by
  refine ⟨rfl, rfl, by decide, by decide⟩

/-- Witness for C3 at concrete inputs: a one-member eligible set with
committee size 2 is returned whole, and on the three-member set with
committee size 2 the committee has exactly 2 members and score-dominates
the dropped remainder. -/
theorem C3_witness :
    select_committee [(⟨10, "b"⟩ : CommitteeCand)] 2 =
      [(⟨10, "b"⟩ : CommitteeCand)] ∧
    ((select_committee [⟨10, "a"⟩, ⟨10, "b"⟩, ⟨20, "c"⟩] 2).length = 2 ∧
      ∃ R, (↑(select_committee [⟨10, "a"⟩, ⟨10, "b"⟩, ⟨20, "c"⟩] 2) :
            Multiset CommitteeCand) + R =
          (↑([⟨10, "a"⟩, ⟨10, "b"⟩, ⟨20, "c"⟩] : List CommitteeCand) :
            Multiset CommitteeCand) ∧
        ∀ x ∈ select_committee [⟨10, "a"⟩, ⟨10, "b"⟩, ⟨20, "c"⟩] 2,
          ∀ y ∈ R, y.score ≤ x.score) :=
  ⟨(C3_select_committee [⟨10, "b"⟩] 2).1 (by decide),
   (C3_select_committee [⟨10, "a"⟩, ⟨10, "b"⟩, ⟨20, "c"⟩] 2).2 (by decide)⟩

end PoE
